import Mathlib

/-!
# Verification of selected solutions of the leet-code repository

Shallow embedding of

* `src/Code/Hard/3273.minimum_amount_of_damage_dealt_to_bob.cpp` (namespace `Bob`),
* `src/Hard/214.shortest_palindrome.cpp` (namespace `Palin`),
* `src/Easy/1.two_sum.cpp` (namespace `TwoSum`),
* `src/Code/Easy/303.range_sum_query_immutable.cpp` (namespace `RangeSum`),
* `src/Code/Medium/1310.xor_queries_of_a_subarray.cpp` (namespace `XorQueries`),
* `src/Code/Easy/2220.minimum_bit_flips_to_convert_number.cpp` (namespace `BitFlips`),
* `src/Medium/539.minimum_time_difference.cpp` (namespace `TimeDiff`),
* `src/Medium/2419.longest_subarray_with_maximum_bitwise_and.cpp` (namespace `MaxAnd`),
* `src/Medium/3271.hash_divided_string.cpp` (namespace `StringHash`).

Conventions of the embedding.

* A C++ `int` value is an `Int`; every `int` operation that can leave the
  32-bit range is followed by `wrap32` (two's-complement wrap-around, which is
  what the compiled code does); `long long` operations are followed by
  `wrap64`.
* Container sizes and loop indices are natural numbers.
* A counted `for` loop is `forLoop n body init`: the body runs for
  `i = 0, 1, ..., n - 1` on an explicit state.
* `std::vector` and `std::string` are lists; `v[i]` is `v.getD i 0` and
  `v[i] = x` is `v.set i x`. In `shortestPalindrome` every read `v[i]` is
  `v[i]?`, and a read outside the container ends the computation with
  `none`.
* A `while` loop is a recursive function with a bound on the number of its
  rounds; running out of the bound ends the computation with `none`. The
  theorems show that neither kind of `none` ever occurs.
-/

/-! ## Definitions -/

/-- Value of a C++ `int` expression whose mathematical result is `x`:
two's-complement reduction to the range `[-2^31, 2^31)`. -/
def wrap32 (x : Int) : Int := (x + 2 ^ 31) % 2 ^ 32 - 2 ^ 31

/-- Value of a C++ `long long` expression whose mathematical result is `x`:
two's-complement reduction to the range `[-2^63, 2^63)`. -/
def wrap64 (x : Int) : Int := (x + 2 ^ 63) % 2 ^ 64 - 2 ^ 63

/-- Counted loop `for (i = 0; i < n; ++i) state = body i state`. -/
def forLoop {σ : Type} (n : Nat) (body : Nat → σ → σ) (init : σ) : σ :=
  (List.range n).foldl (fun s i => body i s) init

/-- The routine `__unguarded_linear_insert` of libstdc++, on an ordered range that is held in
reverse (its last element first): `val` travels to the left past every element it is
strictly before. -/
def linearInsert {α : Type} (lt : α → α → Bool) (val : α) : List α → List α
  | [] => [val]
  | y :: ys => if lt val y then y :: linearInsert lt val ys else val :: y :: ys

/-- One round of `__insertion_sort` of libstdc++: the ordered range (held in reverse) takes
in `val`. An element strictly before the first one is moved to the front at once; any other
element is inserted linearly from the right. -/
def insertionStep {α : Type} (lt : α → α → Bool) (sortedRev : List α) (val : α) : List α :=
  match sortedRev.getLast? with
  | none => [val]
  | some first => if lt val first then sortedRev ++ [val] else linearInsert lt val sortedRev

/-- Model of `std::sort(first, last, lt)`: the straight insertion sort that libstdc++ runs on
ranges of at most 16 elements. The general theorems below use only that the result is a
permutation of the input which is ordered by the strict comparator `lt`, which every
implementation of `std::sort` guarantees when `lt` is a strict weak ordering. -/
def stdSort {α : Type} (lt : α → α → Bool) (l : List α) : List α :=
  (l.foldl (insertionStep lt) []).reverse

namespace Bob

/-- `Solution::live_count`: `health / pow` when `pow` divides `health`, and
`health / pow + 1` otherwise (C++ `/` and `%` truncate towards zero). -/
def live_count (health pow : Int) : Int :=
  if Int.tmod health pow = 0 then Int.tdiv health pow
  else wrap32 (Int.tdiv health pow + 1)

/-- The comparator lambda handed to `sort`:
`a.first*b.second > b.first*a.second`, both products computed in `int`. -/
def cmp (a b : Int × Int) : Bool :=
  decide (wrap32 (a.1 * b.2) > wrap32 (b.1 * a.2))

/-- What a call of `minDamage` leaves behind: the returned value and the final
contents of the two vectors it received by reference. -/
structure Outcome where
  ans : Int
  damage : List Int
  health : List Int
  deriving DecidableEq

/-- First loop of `minDamage`: `health[i] = live_count(health[i], power)`. -/
def hitsLoop (power : Int) (n : Nat) (health : List Int) : List Int :=
  forLoop n (fun i h => h.set i (live_count (h.getD i 0) power)) health

/-- Second loop: `damageHealthPairs.emplace_back(damage[i], health[i])`. -/
def pairLoop (n : Nat) (damage health : List Int) : List (Int × Int) :=
  forLoop n (fun i ps => ps ++ [(damage.getD i 0, health.getD i 0)]) []

/-- Third loop, on the state `(damage, health, dps)`:
`damage[i] = pairs[i].first; dps += damage[i]; health[i] = pairs[i].second`. -/
def writeBackLoop (n : Nat) (pairs : List (Int × Int))
    (init : List Int × List Int × Int) : List Int × List Int × Int :=
  forLoop n (fun i st =>
    let damage := st.1.set i (pairs.getD i (0, 0)).1
    let dps := wrap64 (st.2.2 + damage.getD i 0)
    let health := st.2.1.set i (pairs.getD i (0, 0)).2
    (damage, health, dps)) init

/-- Fourth loop, on the state `(ans, dps)`:
`ans += dps*health[i]; dps -= damage[i]`. -/
def accumulateLoop (n : Nat) (damage health : List Int) (init : Int × Int) : Int × Int :=
  forLoop n (fun i st =>
    (wrap64 (st.1 + wrap64 (st.2 * health.getD i 0)), wrap64 (st.2 - damage.getD i 0))) init

/-- `Solution::minDamage(power, damage, health)`, with the vectors passed by
reference returned next to the result. -/
def minDamage (power : Int) (damage health : List Int) : Outcome :=
  let n := damage.length
  let health1 := hitsLoop power n health
  let damageHealthPairs := stdSort cmp (pairLoop n damage health1)
  let st := writeBackLoop n damageHealthPairs (damage, health1, 0)
  let damage2 := st.1
  let health2 := st.2.1
  let dps := st.2.2
  let fin := accumulateLoop n damage2 health2 (0, dps)
  { ans := fin.1, damage := damage2, health := health2 }

/-- The value that the third and the fourth loop of `minDamage` produce when the sort has
left `pairs` in `damageHealthPairs`; `damage` and `health` are the two vectors as they are
before the third loop. -/
def totalOf (pairs : List (Int × Int)) (damage health : List Int) : Int :=
  let st := writeBackLoop damage.length pairs (damage, health, 0)
  (accumulateLoop damage.length st.1 st.2.1 (0, st.2.2)).1

/-- Hits required by the specification: the ceiling of `health / power`. -/
def hitsRequired (health power : Int) : Int := ⌈(health : ℚ) / (power : ℚ)⌉

/-- The enemies as pairs `(damage rate, hits required)`, in input order. -/
def enemies (power : Int) (damage health : List Int) : List (Int × Int) :=
  List.zip damage (health.map (fun h => hitsRequired h power))

/-- Total damage taken when the enemies are killed in the order of the list:
each kill costs (damage rate of the enemies still alive, the one being killed
included) times (hits required by the one being killed). -/
def orderCost : List (Int × Int) → Int
  | [] => 0
  | e :: rest => (e.1 + (rest.map Prod.fst).sum) * e.2 + orderCost rest

end Bob

namespace Palin

/-- How a call of `shortestPalindrome` ends: it returns a string, it leaves through the
`std::out_of_range` exception of `substr`, or it has no defined behaviour (an index outside
its container, or a loop that does not end). -/
inductive Outcome where
  | ok (result : List Char)
  | outOfRange
  | undefined
  deriving DecidableEq

/-- The inner loop `while (j > 0 && new_s[i] != new_s[j]) j = table[j - 1];`, where `c` is
`new_s[i]`; it yields the final `j`. The first argument bounds the number of tests of the loop
condition; `none` stands for an index outside its container or an exhausted bound. -/
def fallback (new_s : List Char) (table : List Nat) (c : Char) : Nat → Nat → Option Nat
  | 0, _ => none
  | fuel + 1, j =>
    if j > 0 then
      match new_s[j]? with
      | none => none
      | some cj =>
        if c ≠ cj then
          match table[j - 1]? with
          | none => none
          | some j1 => fallback new_s table c fuel j1
        else some j
    else some j

/-- Body of the outer loop for one `i`:
`j = table[i-1]; while (...) ...; if (new_s[i] == new_s[j]) ++j; table[i] = j;`.
The inner loop is allowed one test more than the value `j` it starts from. -/
def borderStep (new_s : List Char) (i : Nat) (table : List Nat) : Option (List Nat) :=
  match table[i - 1]?, new_s[i]? with
  | some j0, some c =>
    match fallback new_s table c (j0 + 1) j0 with
    | none => none
    | some j =>
      match new_s[j]? with
      | none => none
      | some cj => some (table.set i (if c = cj then j + 1 else j))
  | _, _ => none

/-- The vector that the source calls `prefix`, here `table`: created by
`vector<int> table(new_s.size(), 0)` and filled by the loop
`for (int i = 1; i < new_s.size(); ++i)`. -/
def borderTable (new_s : List Char) : Option (List Nat) :=
  forLoop (new_s.length - 1) (fun k st => st.bind (borderStep new_s (k + 1)))
    (some (List.replicate new_s.length 0))

/-- `std::string::substr(pos, count)`: `none` stands for `std::out_of_range`, thrown when
`pos > size()`; otherwise the characters `[pos, pos + min(count, size() - pos))`. -/
def substr (s : List Char) (pos count : Nat) : Option (List Char) :=
  if pos > s.length then none else some ((s.drop pos).take count)

/-- The probe `s + "#" + rev_s`. -/
def probe (s : List Char) : List Char := s ++ '#' :: s.reverse

/-- The value of `n - 1` in the unsigned type `size_t`, for a container size `n`: the
subtraction wraps to `2^64 - 1` when `n` is `0`. -/
def sizeMinusOne (n : Nat) : Nat := if n = 0 then 2 ^ 64 - 1 else n - 1

/-- `Solution::shortestPalindrome(s)`. -/
def shortestPalindrome (s : List Char) : Outcome :=
  let rev_s := s.reverse
  let new_s := s ++ '#' :: rev_s
  match borderTable new_s with
  | none => Outcome.undefined
  | some table =>
    match table.getLast? with
    | none => Outcome.undefined
    | some last =>
      match substr s last (sizeMinusOne s.length) with
      | none => Outcome.outOfRange
      | some ans => Outcome.ok (ans.reverse ++ s)

/-- The word `new_s[0..i]` has a border of length `k`: its first `k` characters are its last
`k` characters, and `k ≤ i`, so that the border is a proper one. -/
def BorderAt (new_s : List Char) (i k : Nat) : Prop :=
  k ≤ i ∧ ∀ t, t < k → new_s[t]? = new_s[i + 1 - k + t]?

/-- The number `k` is the length of the longest border of `new_s[0..i]`. -/
def MaxBorderAt (new_s : List Char) (i k : Nat) : Prop :=
  BorderAt new_s i k ∧ ∀ k1, BorderAt new_s i k1 → k1 ≤ k

/-- Invariant of the outer loop: the table has the size of `new_s` and every entry below
`m` holds the length of the longest border of the corresponding word. -/
def TableOk (new_s : List Char) (m : Nat) (table : List Nat) : Prop :=
  table.length = new_s.length ∧ ∀ i, i < m → ∃ k, table[i]? = some k ∧ MaxBorderAt new_s i k

/-- The list `u` is a border of `v`: a proper prefix of `v` that is also a suffix of `v`. -/
def IsBorder (u v : List Char) : Prop := u.length < v.length ∧ u <+: v ∧ u <:+ v

/-- A palindrome reads the same in both directions. -/
def IsPalindrome (p : List Char) : Prop := p.reverse = p

instance (p : List Char) : Decidable (IsPalindrome p) :=
  inferInstanceAs (Decidable (p.reverse = p))

end Palin

namespace TwoSum

/-- Contents of the `unordered_map<int, int>`: the value stored under each key, if any. -/
abbrev IntMap := Int → Option Int

/-- `map[key] = value`. -/
def assign (m : IntMap) (key value : Int) : IntMap :=
  fun k => if k = key then some value else m k

/-- The loop of `twoSum` from index `i` on, `rest` being `nums[i..]` and `m` the map built so
far: `complement = target - nums[i]` in `int`; a hit in the map returns
`{map[complement], i}`, otherwise `map[nums[i]] = i` and the loop goes on; `{}` at the end. -/
def twoSumFrom (target : Int) : List Int → Nat → IntMap → List Int
  | [], _, _ => []
  | x :: rest, i, m =>
    match m (wrap32 (target - x)) with
    | some j => [j, (i : Int)]
    | none => twoSumFrom target rest (i + 1) (assign m x (i : Int))

/-- `Solution::twoSum(nums, target)`. -/
def twoSum (nums : List Int) (target : Int) : List Int :=
  twoSumFrom target nums 0 (fun _ => none)

end TwoSum

namespace RangeSum

/-- The class `NumArray`; its member, which the source calls `prefix`, is `table`. -/
structure NumArray where
  table : List Int
  deriving DecidableEq

/-- The constructor `NumArray(nums)`, on the state `(sum, table)`:
`table.push_back(sum += nums[i])`, the sum being an `int`. -/
def NumArray.construct (nums : List Int) : NumArray :=
  let st := forLoop nums.length (fun i (st : Int × List Int) =>
    let sum := wrap32 (st.1 + nums.getD i 0)
    (sum, st.2 ++ [sum])) (0, [])
  { table := st.2 }

/-- The method `sumRange(left, right)`: the value returned and the object after the call. -/
def NumArray.sumRange (self : NumArray) (left right : Int) : Int × NumArray :=
  if left > 0 then
    (wrap32 (self.table.getD right.toNat 0 - self.table.getD (left - 1).toNat 0), self)
  else (self.table.getD right.toNat 0, self)

end RangeSum

namespace XorQueries

/-- `Solution::xorQueries(arr, queries)`. The array `int table[n]` (`prefix` in the source)
starts with unspecified contents, modelled by zeros; `table[0] = arr[0]` and the first loop
fill it, and the second loop answers the queries `queries[i] = {left, right}`. -/
def xorQueries (arr : List Int) (queries : List (List Int)) : List Int :=
  let n := arr.length
  let table0 := (List.replicate n (0 : Int)).set 0 (arr.getD 0 0)
  let table := forLoop (n - 1) (fun k t =>
    t.set (k + 1) (Int.xor (t.getD k 0) (arr.getD (k + 1) 0))) table0
  forLoop queries.length (fun i ans =>
    let q := queries.getD i []
    let result :=
      if q.getD 0 0 > 0 then
        Int.xor (table.getD (q.getD 1 0).toNat 0) (table.getD (q.getD 0 0 - 1).toNat 0)
      else table.getD (q.getD 1 0).toNat 0
    ans ++ [result]) []

/-- The value `arr[left] xor arr[left + 1] xor ... xor arr[right]`. -/
def xorRange (arr : List Int) (left right : Nat) : Int :=
  ((arr.drop left).take (right + 1 - left)).foldr Int.xor 0

end XorQueries

namespace BitFlips

/-- `Solution::minBitFlips(start, goal)`; `1 << i` is `2 ^ i` for the `i < 31` of the loop. -/
def minBitFlips (start goal : Int) : Int :=
  let diff := Int.xor start goal
  forLoop 31 (fun i count =>
    if Int.land diff (wrap32 (2 ^ i)) ≠ 0 then wrap32 (count + 1) else count) 0

end BitFlips

namespace TimeDiff

/-- The character `time[i]` of a `std::string`; reading at the end yields the null
character. -/
def charAt (time : List Char) (i : Nat) : Char := time.getD i (Char.ofNat 0)

/-- `Solution::convert(time)`; a `char` minus `'0'` is the `int` difference of the codes. -/
def convert (time : List Char) : Int :=
  (((charAt time 0).toNat : Int) - 48) * 600 + (((charAt time 1).toNat : Int) - 48) * 60
    + (((charAt time 3).toNat : Int) - 48) * 10 + (((charAt time 4).toNat : Int) - 48)

/-- `Solution::findMinDifference(timePoints)`: the times are converted, sorted with
`std::greater<int>()`, and the smallest gap between neighbours is compared with the gap
across midnight. -/
def findMinDifference (timePoints : List (List Char)) : Int :=
  let converted := forLoop timePoints.length
    (fun i c => c ++ [convert (timePoints.getD i [])]) []
  let converted := stdSort (fun a b => decide (a > b)) converted
  let min_diff := wrap32 (converted.getLastD 0 + wrap32 (1440 - converted.getD 0 0))
  forLoop (converted.length - 1) (fun k m =>
    min m (wrap32 (converted.getD k 0 - converted.getD (k + 1) 0))) min_diff

/-- A well-formed 24-hour time `"HH:MM"`, from `00:00` to `23:59`. -/
def WellFormed (time : List Char) : Prop :=
  ∃ h1 h2 m1 m2 : Nat, time = [Char.ofNat (48 + h1), Char.ofNat (48 + h2), ':',
      Char.ofNat (48 + m1), Char.ofNat (48 + m2)]
    ∧ h1 ≤ 9 ∧ h2 ≤ 9 ∧ m1 ≤ 9 ∧ m2 ≤ 9 ∧ 10 * h1 + h2 ≤ 23 ∧ 10 * m1 + m2 ≤ 59

/-- Distance of two times of day on the 24-hour circle, in minutes. -/
def circular (a b : Int) : Int := min |a - b| (1440 - |a - b|)

end TimeDiff

namespace MaxAnd

/-- `Solution::longestSubarray(nums)`. The counters `count` and `ans` never exceed the size
of `nums`; like a size they are not reduced to 32 bits. -/
def longestSubarray (nums : List Int) : Int :=
  let max_num := forLoop nums.length (fun i m => max m (nums.getD i 0)) 0
  let st := forLoop nums.length (fun i (st : Int × Int) =>
    let count := if nums.getD i 0 = max_num then st.1 + 1 else 0
    (count, max st.2 count)) (0, 0)
  st.2

/-- Bitwise AND of the elements of a non-empty list. -/
def andAll : List Int → Int
  | [] => 0
  | [x] => x
  | x :: y :: rest => Int.land x (andAll (y :: rest))

end MaxAnd

namespace StringHash

/-- `Solution::alphabetToNumber(c)`: `c - 'a'`. -/
def alphabetToNumber (c : Char) : Int := (c.toNat : Int) - 97

/-- `Solution::numberToAlphabet(num)`: the `int` value `'a' + num` converted to `char`, that
is reduced to one byte. -/
def numberToAlphabet (num : Int) : Char := Char.ofNat ((97 + num) % 256).toNat

/-- The inner loop `for (int j = i * k; j < (i + 1) * k; j++) temp += alphabetToNumber(s[j]);`
started with the value `temp`; `s[j]` at the end of the string is the null character. -/
def blockLoop (s : List Char) (k i : Nat) (temp : Int) : Int :=
  forLoop k (fun t temp =>
    wrap32 (temp + alphabetToNumber (s.getD (i * k + t) (Char.ofNat 0)))) temp

/-- `Solution::stringHash(s, k)`, where `t0` is the value found in the variable `temp`, which
the code reads before it assigns it. The state of the outer loop is `(temp, ans)`, and `k` is
positive. -/
def stringHash (t0 : Int) (s : List Char) (k : Nat) : List Char :=
  (forLoop (s.length / k) (fun i (st : Int × List Char) =>
    (0, st.2 ++ [numberToAlphabet (Int.tmod (blockLoop s k i st.1) 26)])) (t0, [])).2

/-- The sum of `s[j] - 'a'` over the block `j ∈ [i * k, (i + 1) * k)`. -/
def blockSum (s : List Char) (k i : Nat) : Int :=
  (((s.drop (i * k)).take k).map alphabetToNumber).sum

/-- The intended hash: for every block the letter `'a' + (block sum mod 26)`. -/
def intendedHash (s : List Char) (k : Nat) : List Char :=
  (List.range (s.length / k)).map (fun i => Char.ofNat (97 + (blockSum s k i % 26).toNat))

end StringHash

/-! ## Theorems -/

theorem wrap32_of_range {x : Int} (h1 : -2 ^ 31 ≤ x) (h2 : x < 2 ^ 31) : wrap32 x = x := by
  unfold wrap32
  rw [Int.emod_eq_of_lt (by omega) (by omega)]
  omega

theorem wrap64_of_range {x : Int} (h1 : -2 ^ 63 ≤ x) (h2 : x < 2 ^ 63) : wrap64 x = x := by
  unfold wrap64
  rw [Int.emod_eq_of_lt (by omega) (by omega)]
  omega

theorem forLoop_zero {σ : Type} (body : Nat → σ → σ) (init : σ) : forLoop 0 body init = init := rfl

theorem forLoop_succ {σ : Type} (n : Nat) (body : Nat → σ → σ) (init : σ) :
    forLoop (n + 1) body init = body n (forLoop n body init) := by
  simp [forLoop, List.range_succ, List.foldl_append]

theorem linearInsert_perm {α : Type} (lt : α → α → Bool) (val : α) (ys : List α) :
    (linearInsert lt val ys).Perm (val :: ys) := by
  induction ys with
  | nil => simp [linearInsert]
  | cons y ys ih =>
    by_cases h : lt val y = true
    · simp only [linearInsert, h, if_true]
      exact ((List.Perm.cons y ih).trans (List.Perm.swap val y ys))
    · simp [linearInsert, h]

theorem insertionStep_perm {α : Type} (lt : α → α → Bool) (acc : List α) (val : α) :
    (insertionStep lt acc val).Perm (val :: acc) := by
  unfold insertionStep
  cases hl : acc.getLast? with
  | none =>
    rw [List.getLast?_eq_none_iff.1 hl]
  | some first =>
    by_cases h : lt val first = true
    · simp only [h, if_true]
      exact List.perm_append_singleton val acc
    · simp only [h]
      exact linearInsert_perm lt val acc

theorem foldl_insertionStep_perm {α : Type} (lt : α → α → Bool) (l : List α) :
    ∀ acc : List α, (l.foldl (insertionStep lt) acc).Perm (l ++ acc) := by
  induction l with
  | nil => intro acc; exact List.Perm.refl _
  | cons x xs ih =>
    intro acc
    rw [List.foldl_cons]
    refine (ih _).trans ?_
    refine ((insertionStep_perm lt acc x).append_left xs).trans ?_
    have hmid : (xs ++ x :: acc).Perm (x :: (xs ++ acc)) := List.perm_middle
    exact hmid

theorem stdSort_perm {α : Type} (lt : α → α → Bool) (l : List α) : (stdSort lt l).Perm l := by
  unfold stdSort
  refine (List.reverse_perm _).trans ?_
  simpa using foldl_insertionStep_perm lt l []

theorem linearInsert_pairwise {α : Type} (lt : α → α → Bool) (val : α) (ys : List α)
    (hasym : ∀ y ∈ ys, lt val y = true → lt y val = false)
    (htrans : ∀ y ∈ ys, ∀ z ∈ ys, lt y z = false → lt val y = false → lt val z = false)
    (hs : ys.Pairwise (fun a b => lt a b = false)) :
    (linearInsert lt val ys).Pairwise (fun a b => lt a b = false) := by
  induction ys with
  | nil => simp [linearInsert]
  | cons y ys ih =>
    rw [List.pairwise_cons] at hs
    by_cases h : lt val y = true
    · simp only [linearInsert, h, if_true]
      refine List.Pairwise.cons ?_ ?_
      · intro w hw
        rcases List.mem_cons.1 ((linearInsert_perm lt val ys).mem_iff.1 hw) with rfl | hw
        · exact hasym y (List.mem_cons_self _ _) h
        · exact hs.1 w hw
      · exact ih (fun z hz => hasym z (List.mem_cons_of_mem _ hz))
          (fun z hz w hw => htrans z (List.mem_cons_of_mem _ hz) w (List.mem_cons_of_mem _ hw))
          hs.2
    · have hvy : lt val y = false := by simpa using h
      simp only [linearInsert, h]
      refine List.Pairwise.cons ?_ (List.Pairwise.cons hs.1 hs.2)
      intro w hw
      rcases List.mem_cons.1 hw with rfl | hw
      · exact hvy
      · exact htrans y (List.mem_cons_self _ _) w (List.mem_cons_of_mem _ hw) (hs.1 w hw) hvy

theorem insertionStep_pairwise {α : Type} (lt : α → α → Bool) (acc : List α) (val : α)
    (hasym : ∀ y ∈ acc, lt val y = true → lt y val = false)
    (htrans : ∀ y ∈ acc, ∀ z ∈ acc, lt y z = false → lt val y = false → lt val z = false)
    (htrans2 : ∀ y ∈ acc, ∀ z ∈ acc, lt y val = false → lt z y = false → lt z val = false)
    (hs : acc.Pairwise (fun a b => lt a b = false)) :
    (insertionStep lt acc val).Pairwise (fun a b => lt a b = false) := by
  unfold insertionStep
  cases hl : acc.getLast? with
  | none => simp
  | some first =>
    by_cases h : lt val first = true
    · simp only [h, if_true]
      have hfm : first ∈ acc := List.mem_of_getLast?_eq_some hl
      have hfv : lt first val = false := hasym first hfm h
      obtain ⟨init, hinit⟩ : ∃ init, acc = init ++ [first] := by
        have hne : acc ≠ [] := by
          intro hnil
          rw [hnil] at hl
          simp at hl
        refine ⟨acc.dropLast, ?_⟩
        have h1 := List.dropLast_append_getLast hne
        rw [List.getLast?_eq_getLast _ hne] at hl
        rw [Option.some.inj hl] at h1
        exact h1.symm
      rw [List.pairwise_append]
      refine ⟨hs, by simp, ?_⟩
      intro x hx w hw
      rw [List.mem_singleton.1 hw]
      rw [hinit] at hx hs
      rcases List.mem_append.1 hx with hx1 | hx1
      · have hxf : lt x first = false :=
          (List.pairwise_append.1 hs).2.2 x hx1 first (List.mem_singleton_self _)
        exact htrans2 first hfm x (by rw [hinit]; exact hx) hfv hxf
      · rw [List.mem_singleton.1 hx1]
        exact hfv
    · simp only [h]
      exact linearInsert_pairwise lt val acc hasym htrans hs

theorem stdSort_pairwise {α : Type} (lt : α → α → Bool) (l : List α)
    (hasym : ∀ x ∈ l, ∀ y ∈ l, lt x y = true → lt y x = false)
    (htrans : ∀ x ∈ l, ∀ y ∈ l, ∀ z ∈ l, lt y x = false → lt z y = false → lt z x = false) :
    (stdSort lt l).Pairwise (fun a b => lt b a = false) := by
  have hfold : ∀ (xs acc : List α), (∀ x ∈ xs, x ∈ l) → (∀ x ∈ acc, x ∈ l) →
      acc.Pairwise (fun a b => lt a b = false) →
      (xs.foldl (insertionStep lt) acc).Pairwise (fun a b => lt a b = false) := by
    intro xs
    induction xs with
    | nil => intro acc _ _ hs; exact hs
    | cons x xs ih =>
      intro acc hxs hacc hs
      have hx : x ∈ l := hxs x (List.mem_cons_self _ _)
      rw [List.foldl_cons]
      refine ih _ (fun y hy => hxs y (List.mem_cons_of_mem _ hy)) ?_ ?_
      · intro y hy
        rcases List.mem_cons.1 ((insertionStep_perm lt acc x).mem_iff.1 hy) with rfl | hy
        · exact hx
        · exact hacc y hy
      · exact insertionStep_pairwise lt acc x
          (fun y hy => hasym x hx y (hacc y hy))
          (fun y hy z hz h1 h2 => htrans z (hacc z hz) y (hacc y hy) x hx h1 h2)
          (fun y hy z hz h1 h2 => htrans x hx y (hacc y hy) z (hacc z hz) h1 h2) hs
  unfold stdSort
  rw [List.pairwise_reverse]
  exact hfold l [] (fun x hx => hx) (fun x hx => absurd hx (List.not_mem_nil _))
    List.Pairwise.nil
namespace Bob

theorem live_count_bounds {h p : Int} (hh : 0 < h) (hh2 : h < 2 ^ 31) (hp : 0 < p) :
    (live_count h p - 1) * p < h ∧ h ≤ live_count h p * p ∧ 1 ≤ live_count h p
      ∧ live_count h p ≤ h := by
  have hdm := Int.emod_add_ediv h p
  have hm0 := Int.emod_nonneg h (ne_of_gt hp)
  have hm1 := Int.emod_lt_of_pos h hp
  have hq0 : 0 ≤ h / p := Int.ediv_nonneg hh.le hp.le
  have hqh : h / p ≤ h := Int.ediv_le_self _ hh.le
  unfold live_count
  rw [Int.tmod_eq_emod hh.le hp.le, Int.tdiv_eq_ediv hh.le hp.le]
  by_cases hr : h % p = 0
  · rw [if_pos hr]
    rw [hr] at hdm
    have hpq : p * (h / p) = h := by omega
    have hq1 : 1 ≤ h / p := by
      by_contra hc
      have : h / p = 0 := by omega
      rw [this] at hpq
      omega
    refine ⟨?_, ?_, hq1, hqh⟩ <;> nlinarith
  · rw [if_neg hr]
    have hlt : h / p < h := by
      rcases eq_or_lt_of_le hq0 with h0 | h0
      · omega
      · by_contra hc
        have he : h / p = h := by omega
        rw [he] at hdm
        have : h ≤ p * h := by nlinarith
        omega
    rw [wrap32_of_range (by omega) (by omega)]
    have e1 : (h / p + 1 - 1) * p = p * (h / p) := by ring
    have e2 : (h / p + 1) * p = p * (h / p) + p := by ring
    rw [e1, e2]
    refine ⟨by omega, by omega, by omega, by omega⟩

theorem hitsRequired_eq_iff {h p k : Int} (hp : 0 < p) :
    hitsRequired h p = k ↔ (k - 1) * p < h ∧ h ≤ k * p := by
  have hp' : (0 : ℚ) < (p : ℚ) := by exact_mod_cast hp
  unfold hitsRequired
  rw [Int.ceil_eq_iff, lt_div_iff₀ hp', div_le_iff₀ hp']
  constructor
  · rintro ⟨h1, h2⟩
    exact ⟨by exact_mod_cast h1, by exact_mod_cast h2⟩
  · rintro ⟨h1, h2⟩
    exact ⟨by exact_mod_cast h1, by exact_mod_cast h2⟩

theorem live_count_eq_hitsRequired {h p : Int} (hh : 0 < h) (hh2 : h < 2 ^ 31) (hp : 0 < p) :
    live_count h p = hitsRequired h p := by
  have hb := live_count_bounds hh hh2 hp
  exact ((hitsRequired_eq_iff hp).2 ⟨hb.1, hb.2.1⟩).symm

end Bob
theorem set_append_drop {α : Type} (A l : List α) (n : Nat) (x : α) (hA : A.length = n)
    (hn : n < l.length) : (A ++ l.drop n).set n x = (A ++ [x]) ++ l.drop (n + 1) := by
  subst hA
  rw [List.set_append_right _ _ (le_refl _), Nat.sub_self, List.drop_eq_getElem_cons hn,
    List.set_cons_zero, List.append_assoc, List.singleton_append]

theorem getD_append_drop {α : Type} (A l : List α) (n : Nat) (d : α) (hA : A.length = n)
    (hn : n < l.length) : (A ++ l.drop n).getD n d = l[n] := by
  subst hA
  rw [List.getD_eq_getElem?_getD, List.getElem?_append_right (le_refl _), Nat.sub_self,
    List.drop_eq_getElem_cons hn, List.getElem?_cons_zero, Option.getD_some]

theorem take_succ_eq {α : Type} (l : List α) (n : Nat) (hn : n < l.length) :
    l.take (n + 1) = l.take n ++ [l[n]] := by
  rw [List.take_succ, List.getElem?_eq_getElem hn]
  rfl

namespace Bob

theorem hitsLoop_eq (power : Int) (health : List Int) (n : Nat) (hn : n ≤ health.length) :
    hitsLoop power n health
      = (health.take n).map (fun h => live_count h power) ++ health.drop n := by
  induction n with
  | zero => simp [hitsLoop, forLoop_zero]
  | succ n ih =>
    have hn' : n < health.length := hn
    unfold hitsLoop at ih ⊢
    rw [forLoop_succ, ih (le_of_lt hn')]
    rw [getD_append_drop _ _ _ _ (by simp [le_of_lt hn']) hn',
      set_append_drop _ _ _ _ (by simp [le_of_lt hn']) hn', take_succ_eq _ _ hn']
    simp only [List.map_append, List.map_cons, List.map_nil]

theorem pairLoop_eq (damage health : List Int) (n : Nat) (hd : n ≤ damage.length)
    (hh : n ≤ health.length) :
    pairLoop n damage health = List.zip (damage.take n) (health.take n) := by
  induction n with
  | zero => simp [pairLoop, forLoop_zero]
  | succ n ih =>
    have hd' : n < damage.length := hd
    have hh' : n < health.length := hh
    unfold pairLoop at ih ⊢
    rw [forLoop_succ, ih (le_of_lt hd') (le_of_lt hh'), take_succ_eq _ _ hd',
      take_succ_eq _ _ hh', List.zip_append (by simp [le_of_lt hd', le_of_lt hh'])]
    simp [List.getD_eq_getElem?_getD, List.getElem?_eq_getElem hd', List.getElem?_eq_getElem hh']

/-- Running value of `dps` in the third loop: the wrapped sum of the damage rates. -/
theorem writeBackLoop_eq (pairs : List (Int × Int)) (damage health : List Int) (s : Int)
    (n : Nat) (hp : n ≤ pairs.length) (hd : n ≤ damage.length) (hh : n ≤ health.length) :
    writeBackLoop n pairs (damage, health, s)
      = ((pairs.take n).map Prod.fst ++ damage.drop n,
         (pairs.take n).map Prod.snd ++ health.drop n,
         (pairs.take n).foldl (fun acc e => wrap64 (acc + e.1)) s) := by
  induction n with
  | zero => simp [writeBackLoop, forLoop_zero]
  | succ n ih =>
    have hp' : n < pairs.length := hp
    have hd' : n < damage.length := hd
    have hh' : n < health.length := hh
    unfold writeBackLoop at ih ⊢
    rw [forLoop_succ, ih (le_of_lt hp') (le_of_lt hd') (le_of_lt hh')]
    simp only
    rw [set_append_drop _ _ _ _ (by simp [le_of_lt hp']) hd',
      set_append_drop _ _ _ _ (by simp [le_of_lt hp']) hh', take_succ_eq _ _ hp']
    have hg : ((List.map Prod.fst (List.take n pairs) ++ [(pairs.getD n (0, 0)).1])
        ++ List.drop (n + 1) damage).getD n 0 = (pairs.getD n (0, 0)).1 := by
      rw [List.append_assoc, List.getD_eq_getElem?_getD,
        List.getElem?_append_right (by simp [le_of_lt hp'])]
      simp [le_of_lt hp']
    rw [hg]
    have hgp : pairs.getD n (0, 0) = pairs[n] := by
      simp [List.getD_eq_getElem?_getD, List.getElem?_eq_getElem hp']
    rw [hgp]
    simp only [List.map_append, List.map_cons, List.map_nil, List.foldl_append, List.foldl_cons,
      List.foldl_nil]

theorem accumulateLoop_eq (damage health : List Int) (init : Int × Int) (n : Nat)
    (hd : n ≤ damage.length) (hh : n ≤ health.length) :
    accumulateLoop n damage health init
      = (List.zip (damage.take n) (health.take n)).foldl
          (fun st e => (wrap64 (st.1 + wrap64 (st.2 * e.2)), wrap64 (st.2 - e.1))) init := by
  induction n with
  | zero => simp [accumulateLoop, forLoop_zero]
  | succ n ih =>
    have hd' : n < damage.length := hd
    have hh' : n < health.length := hh
    unfold accumulateLoop at ih ⊢
    rw [forLoop_succ, ih (le_of_lt hd') (le_of_lt hh'), take_succ_eq _ _ hd',
      take_succ_eq _ _ hh', List.zip_append (by simp [le_of_lt hd', le_of_lt hh'])]
    simp [List.getD_eq_getElem?_getD, List.getElem?_eq_getElem hd', List.getElem?_eq_getElem hh',
      List.foldl_append]

end Bob
theorem zip_map_fst_map_snd {α β : Type} (l : List (α × β)) :
    List.zip (l.map Prod.fst) (l.map Prod.snd) = l := by
  induction l with
  | nil => rfl
  | cons x xs ih => simp [ih]

namespace Bob

theorem minDamage_eq (power : Int) (damage health : List Int)
    (hlen : damage.length = health.length) :
    minDamage power damage health =
      { ans := ((stdSort cmp (List.zip damage (health.map (fun h => live_count h power)))).foldl
            (fun st e => (wrap64 (st.1 + wrap64 (st.2 * e.2)), wrap64 (st.2 - e.1)))
            (0, (stdSort cmp (List.zip damage (health.map (fun h => live_count h power)))).foldl
              (fun acc e => wrap64 (acc + e.1)) 0)).1,
        damage := (stdSort cmp (List.zip damage (health.map (fun h => live_count h power)))).map
          Prod.fst,
        health := (stdSort cmp (List.zip damage (health.map (fun h => live_count h power)))).map
          Prod.snd } := by
  have h1 : hitsLoop power damage.length health = health.map (fun h => live_count h power) := by
    rw [hitsLoop_eq _ _ _ (le_of_eq hlen), hlen]
    simp
  have h2 : pairLoop damage.length damage (health.map (fun h => live_count h power))
      = List.zip damage (health.map (fun h => live_count h power)) := by
    rw [pairLoop_eq _ _ _ (le_refl _) (by simp [hlen])]
    have : List.take damage.length (health.map (fun h => live_count h power))
        = health.map (fun h => live_count h power) := by
      apply List.take_of_length_le
      simp [hlen]
    rw [this, List.take_length]
  have hl : (stdSort cmp (List.zip damage (health.map (fun h => live_count h power)))).length
      = damage.length := by
    rw [(stdSort_perm _ _).length_eq]
    simp [hlen]
  unfold minDamage
  simp only [h1, h2]
  rw [writeBackLoop_eq _ _ _ _ _ (le_of_eq hl.symm) (le_refl _) (by simp [hlen])]
  simp only
  rw [accumulateLoop_eq _ _ _ _ (by simp [hl]) (by simp [hl])]
  have e1 : List.take damage.length
      (stdSort cmp (List.zip damage (health.map (fun h => live_count h power))))
      = stdSort cmp (List.zip damage (health.map (fun h => live_count h power))) :=
    List.take_of_length_le (le_of_eq hl)
  have e2 : List.drop damage.length damage = [] := List.drop_length _
  have e3 : List.drop damage.length (health.map (fun h => live_count h power)) = [] := by
    apply List.drop_of_length_le
    simp [hlen]
  rw [e1, e2, e3]
  simp only [List.append_nil]
  rw [List.take_of_length_le (by simp [hl]), List.take_of_length_le (by simp [hl]),
    zip_map_fst_map_snd]


theorem sum_fst_nonneg (l : List (Int × Int)) (h : ∀ e ∈ l, 0 ≤ e.1) :
    0 ≤ (l.map Prod.fst).sum := by
  apply List.sum_nonneg
  intro x hx
  rcases List.mem_map.1 hx with ⟨e, he, rfl⟩
  exact h e he

theorem orderCost_nonneg (l : List (Int × Int)) (h : ∀ e ∈ l, 0 ≤ e.1 ∧ 0 ≤ e.2) :
    0 ≤ orderCost l := by
  induction l with
  | nil => simp [orderCost]
  | cons e r ih =>
    have hr := ih (fun x hx => h x (List.mem_cons_of_mem _ hx))
    have hs := sum_fst_nonneg r (fun x hx => (h x (List.mem_cons_of_mem _ hx)).1)
    have he := h e (List.mem_cons_self _ _)
    simp only [orderCost]
    have : 0 ≤ (e.1 + (r.map Prod.fst).sum) * e.2 := mul_nonneg (by omega) he.2
    omega

theorem sum_fst_le_orderCost (l : List (Int × Int)) (h : ∀ e ∈ l, 0 ≤ e.1 ∧ 1 ≤ e.2) :
    (l.map Prod.fst).sum ≤ orderCost l := by
  cases l with
  | nil => simp [orderCost]
  | cons e r =>
    have hr := orderCost_nonneg r (fun x hx =>
      ⟨(h x (List.mem_cons_of_mem _ hx)).1, by have := (h x (List.mem_cons_of_mem _ hx)).2; omega⟩)
    have hs := sum_fst_nonneg r (fun x hx => (h x (List.mem_cons_of_mem _ hx)).1)
    have he := h e (List.mem_cons_self _ _)
    simp only [orderCost, List.map_cons, List.sum_cons]
    have : (e.1 + (r.map Prod.fst).sum) * 1 ≤ (e.1 + (r.map Prod.fst).sum) * e.2 :=
      mul_le_mul_of_nonneg_left he.2 (by omega)
    omega

theorem foldl_dps (l : List (Int × Int)) (s : Int) (h : ∀ e ∈ l, 0 ≤ e.1) (hs : 0 ≤ s)
    (hfit : s + (l.map Prod.fst).sum < 2 ^ 63) :
    l.foldl (fun acc e => wrap64 (acc + e.1)) s = s + (l.map Prod.fst).sum := by
  induction l generalizing s with
  | nil => simp
  | cons e r ih =>
    have he := h e (List.mem_cons_self _ _)
    have hr := sum_fst_nonneg r (fun x hx => h x (List.mem_cons_of_mem _ hx))
    simp only [List.map_cons, List.sum_cons] at hfit
    simp only [List.foldl_cons, List.map_cons, List.sum_cons]
    rw [wrap64_of_range (by omega) (by omega),
      ih (s + e.1) (fun x hx => h x (List.mem_cons_of_mem _ hx)) (by omega) (by omega)]
    omega

theorem foldl_ans (l : List (Int × Int)) (a : Int) (h : ∀ e ∈ l, 0 ≤ e.1 ∧ 1 ≤ e.2)
    (ha : 0 ≤ a) (hfit : a + orderCost l < 2 ^ 63) :
    l.foldl (fun st e => (wrap64 (st.1 + wrap64 (st.2 * e.2)), wrap64 (st.2 - e.1)))
        (a, (l.map Prod.fst).sum) = (a + orderCost l, 0) := by
  induction l generalizing a with
  | nil => simp [orderCost]
  | cons e r ih =>
    have he := h e (List.mem_cons_self _ _)
    have hr' : ∀ x ∈ r, 0 ≤ x.1 ∧ 1 ≤ x.2 := fun x hx => h x (List.mem_cons_of_mem _ hx)
    have hs := sum_fst_nonneg r (fun x hx => (hr' x hx).1)
    have hc := orderCost_nonneg r (fun x hx => ⟨(hr' x hx).1, by have := (hr' x hx).2; omega⟩)
    simp only [orderCost] at hfit
    have hm : (e.1 + (r.map Prod.fst).sum) * 1 ≤ (e.1 + (r.map Prod.fst).sum) * e.2 :=
      mul_le_mul_of_nonneg_left he.2 (by omega)
    simp only [List.foldl_cons, List.map_cons, List.sum_cons, orderCost]
    rw [wrap64_of_range (x := (e.1 + (r.map Prod.fst).sum) * e.2) (by omega) (by omega),
      wrap64_of_range (x := a + (e.1 + (r.map Prod.fst).sum) * e.2) (by omega) (by omega),
      wrap64_of_range (x := e.1 + (r.map Prod.fst).sum - e.1) (by omega) (by omega)]
    have e0 : e.1 + (r.map Prod.fst).sum - e.1 = (r.map Prod.fst).sum := by omega
    rw [e0, ih (a + (e.1 + (r.map Prod.fst).sum) * e.2) hr' (by omega) (by omega)]
    simp only [Prod.mk.injEq, and_true]
    omega

theorem orderCost_append (s t : List (Int × Int)) :
    orderCost (s ++ t)
      = orderCost s + (s.map Prod.snd).sum * (t.map Prod.fst).sum + orderCost t := by
  induction s with
  | nil => simp [orderCost]
  | cons e r ih =>
    rw [List.cons_append]
    simp only [orderCost]
    rw [ih]
    simp only [List.map_append, List.sum_append, List.map_cons, List.sum_cons]
    ring

theorem cross_sum_le (s : List (Int × Int)) (c1 c2 : Int)
    (h : ∀ y ∈ s, y.1 * c2 ≤ c1 * y.2) :
    (s.map Prod.fst).sum * c2 ≤ c1 * (s.map Prod.snd).sum := by
  induction s with
  | nil => simp
  | cons e r ih =>
    have he := h e (List.mem_cons_self _ _)
    have hr := ih (fun y hy => h y (List.mem_cons_of_mem _ hy))
    simp only [List.map_cons, List.sum_cons]
    nlinarith

/-- Exchange argument: an order in which every enemy has a ranking key at least
as large as every later one costs no more than any other order. -/
theorem orderCost_sorted_le (l : List (Int × Int))
    (hs : l.Pairwise (fun a b => b.1 * a.2 ≤ a.1 * b.2)) :
    ∀ σ : List (Int × Int), σ.Perm l → orderCost l ≤ orderCost σ := by
  induction l with
  | nil =>
    intro σ hσ
    rw [List.Perm.eq_nil hσ]
  | cons x l ih =>
    intro σ hσ
    rw [List.pairwise_cons] at hs
    have hx : x ∈ σ := hσ.mem_iff.2 (List.mem_cons_self _ _)
    obtain ⟨s1, s2, rfl⟩ := List.append_of_mem hx
    have hp : (s1 ++ s2).Perm l := (List.perm_middle.symm.trans hσ).cons_inv
    have hih := ih hs.2 (s1 ++ s2) hp
    have hsum : (l.map Prod.fst).sum = (s1.map Prod.fst).sum + (s2.map Prod.fst).sum := by
      rw [← List.sum_append, ← List.map_append]
      exact ((hp.map Prod.fst).sum_eq).symm
    have hcross := cross_sum_le s1 x.1 x.2 (fun y hy =>
      hs.1 y (hp.mem_iff.1 (List.mem_append_left _ hy)))
    rw [orderCost_append] at hih ⊢
    simp only [orderCost, List.map_cons, List.sum_cons, hsum]
    nlinarith


theorem hits_map_eq (power : Int) (health : List Int) (hp : 0 < power)
    (hh : ∀ h ∈ health, 0 < h ∧ h < 2 ^ 31) :
    health.map (fun h => live_count h power) = health.map (fun h => hitsRequired h power) := by
  apply List.map_congr_left
  intro h hm
  exact live_count_eq_hitsRequired (hh h hm).1 (hh h hm).2 hp

theorem mem_enemies {power : Int} {damage health : List Int} {e : Int × Int}
    (he : e ∈ enemies power damage health) :
    e.1 ∈ damage ∧ ∃ h ∈ health, e.2 = hitsRequired h power := by
  have h1 := List.of_mem_zip (a := e.1) (b := e.2) he
  refine ⟨h1.1, ?_⟩
  rcases List.mem_map.1 h1.2 with ⟨h, hm, hq⟩
  exact ⟨h, hm, hq.symm⟩

theorem hitsRequired_pos {h p : Int} (hh : 0 < h) (hh2 : h < 2 ^ 31) (hp : 0 < p) :
    1 ≤ hitsRequired h p := by
  rw [← live_count_eq_hitsRequired hh hh2 hp]
  exact (live_count_bounds hh hh2 hp).2.2.1

theorem cmp_eq_of_range {a b : Int × Int} (h1 : 0 ≤ a.1 * b.2) (h2 : a.1 * b.2 < 2 ^ 31)
    (h3 : 0 ≤ b.1 * a.2) (h4 : b.1 * a.2 < 2 ^ 31) :
    cmp a b = decide (b.1 * a.2 < a.1 * b.2) := by
  unfold cmp
  rw [wrap32_of_range (by omega) h2, wrap32_of_range (by omega) h4]

theorem key_trans {x y z : Int × Int} (hx : 0 < x.2) (hy : 0 < y.2) (hz : 0 < z.2)
    (h1 : y.1 * x.2 ≤ x.1 * y.2) (h2 : z.1 * y.2 ≤ y.1 * z.2) : z.1 * x.2 ≤ x.1 * z.2 := by
  have a1 : z.1 * y.2 * x.2 ≤ y.1 * z.2 * x.2 := mul_le_mul_of_nonneg_right h2 hx.le
  have a2 : y.1 * x.2 * z.2 ≤ x.1 * y.2 * z.2 := mul_le_mul_of_nonneg_right h1 hz.le
  have a3 : y.2 * (z.1 * x.2) ≤ y.2 * (x.1 * z.2) := by nlinarith
  exact le_of_mul_le_mul_left a3 hy

theorem enemies_eq_map (power : Int) (damage health : List Int) :
    enemies power damage health
      = (List.zip damage health).map (fun p => (p.1, hitsRequired p.2 power)) := by
  unfold enemies
  rw [List.zip_map_right]
  rfl

/-- The bound on the products of two different enemies, read on the pairs. -/
theorem zip_bound_of_index (power : Int) (damage health : List Int)
    (hidx : ∀ i, i < damage.length → ∀ j, j < health.length → i ≠ j →
      damage.getD i 0 * live_count (health.getD j 0) power < 2 ^ 31) :
    ∀ a ∈ List.zip damage health, ∀ b ∈ List.zip damage health, a ≠ b →
      a.1 * live_count b.2 power < 2 ^ 31 := by
  intro a ha b hb hab
  obtain ⟨i, hi⟩ := List.mem_iff_getElem?.1 ha
  obtain ⟨j, hj⟩ := List.mem_iff_getElem?.1 hb
  obtain ⟨hi1, hi2⟩ := List.getElem?_zip_eq_some.1 hi
  obtain ⟨hj1, hj2⟩ := List.getElem?_zip_eq_some.1 hj
  have hij : i ≠ j := by
    rintro rfl
    rw [hi] at hj
    exact hab (Option.some.inj hj)
  have h := hidx i (List.getElem?_eq_some_iff.1 hi1).1 j (List.getElem?_eq_some_iff.1 hj2).1 hij
  rw [List.getD_eq_getElem?_getD, List.getD_eq_getElem?_getD, hi1, hj2] at h
  exact h

/-- Under the stated ranges the call sorts the (damage, hits) pairs by ranking key and returns
the cost of that order; the two vectors come back holding the sorted pairs. -/
theorem minDamage_sorted (power : Int) (damage health : List Int) (hp : 0 < power)
    (hlen : damage.length = health.length) (hd : ∀ d ∈ damage, 0 < d)
    (hh : ∀ h ∈ health, 0 < h ∧ h < 2 ^ 31)
    (hprod : ∀ a ∈ List.zip damage health, ∀ b ∈ List.zip damage health, a ≠ b →
      a.1 * live_count b.2 power < 2 ^ 31)
    (hfit : ∃ σ : List (Int × Int), σ.Perm (enemies power damage health) ∧ orderCost σ < 2 ^ 63) :
    ∃ S : List (Int × Int), S.Perm (enemies power damage health)
      ∧ S.Pairwise (fun a b => b.1 * a.2 ≤ a.1 * b.2)
      ∧ minDamage power damage health
          = { ans := orderCost S, damage := S.map Prod.fst, health := S.map Prod.snd } := by
  have hE : List.zip damage (health.map (fun h => live_count h power))
      = enemies power damage health := by
    rw [hits_map_eq power health hp hh]
    rfl
  have hmem : ∀ e ∈ enemies power damage health, 0 < e.1 ∧ 1 ≤ e.2 := by
    intro e he
    obtain ⟨h1, h, hm, hq⟩ := mem_enemies he
    exact ⟨hd _ h1, by rw [hq]; exact hitsRequired_pos (hh h hm).1 (hh h hm).2 hp⟩
  have hrange : ∀ a ∈ enemies power damage health, ∀ b ∈ enemies power damage health,
      a ≠ b → 0 ≤ a.1 * b.2 ∧ a.1 * b.2 < 2 ^ 31 := by
    intro a ha b hb hab
    refine ⟨mul_nonneg (hmem a ha).1.le (by have := (hmem b hb).2; omega), ?_⟩
    rw [enemies_eq_map] at ha hb
    obtain ⟨pa, hpa, rfl⟩ := List.mem_map.1 ha
    obtain ⟨pb, hpb, rfl⟩ := List.mem_map.1 hb
    have hne : pa ≠ pb := fun h => hab (by rw [h])
    have hbh : pb.2 ∈ health := (List.of_mem_zip (a := pb.1) (b := pb.2) hpb).2
    simp only
    rw [← live_count_eq_hitsRequired (hh _ hbh).1 (hh _ hbh).2 hp]
    exact hprod pa hpa pb hpb hne
  have hcmp : ∀ a ∈ enemies power damage health, ∀ b ∈ enemies power damage health,
      cmp a b = decide (b.1 * a.2 < a.1 * b.2) := by
    intro a ha b hb
    by_cases hab : a = b
    · subst hab
      unfold cmp
      simp
    · exact cmp_eq_of_range (hrange a ha b hb hab).1 (hrange a ha b hb hab).2
        (hrange b hb a ha (fun h => hab h.symm)).1 (hrange b hb a ha (fun h => hab h.symm)).2
  have hperm := stdSort_perm cmp (enemies power damage health)
  have hsorted : (stdSort cmp (enemies power damage health)).Pairwise
      (fun a b => b.1 * a.2 ≤ a.1 * b.2) := by
    have hpw := stdSort_pairwise cmp (enemies power damage health)
      (by
        intro x hx y hy hxy
        rw [hcmp x hx y hy] at hxy
        rw [hcmp y hy x hx]
        simp only [decide_eq_true_eq] at hxy
        simp only [decide_eq_false_iff_not, not_lt]
        omega)
      (by
        intro x hx y hy z hz h1 h2
        rw [hcmp y hy x hx] at h1
        rw [hcmp z hz y hy] at h2
        rw [hcmp z hz x hx]
        simp only [decide_eq_false_iff_not, not_lt] at h1 h2 ⊢
        exact key_trans (by have := (hmem x hx).2; omega) (by have := (hmem y hy).2; omega)
          (by have := (hmem z hz).2; omega) h1 h2)
    refine hpw.imp_of_mem ?_
    intro a b ha hb hab
    rw [hcmp b (hperm.mem_iff.1 hb) a (hperm.mem_iff.1 ha)] at hab
    simpa using hab
  have hmemS : ∀ e ∈ stdSort cmp (enemies power damage health), 0 ≤ e.1 ∧ 1 ≤ e.2 :=
    fun e he => ⟨(hmem e (hperm.mem_iff.1 he)).1.le, (hmem e (hperm.mem_iff.1 he)).2⟩
  obtain ⟨σ, hσ, hσfit⟩ := hfit
  have hle : orderCost (stdSort cmp (enemies power damage health)) ≤ orderCost σ :=
    orderCost_sorted_le _ hsorted σ (hσ.trans hperm.symm)
  have hsum := sum_fst_le_orderCost _ hmemS
  refine ⟨stdSort cmp (enemies power damage health), hperm, hsorted, ?_⟩
  rw [minDamage_eq power damage health hlen, hE,
    foldl_dps _ 0 (fun e he => (hmemS e he).1) (le_refl _) (by omega), zero_add,
    foldl_ans _ 0 hmemS (le_refl _) (by omega), zero_add]


theorem enemies_perm (power : Int) {damage health damage' health' : List Int}
    (hperm : (List.zip damage' health').Perm (List.zip damage health)) :
    (enemies power damage' health').Perm (enemies power damage health) := by
  rw [enemies_eq_map, enemies_eq_map]
  exact hperm.map _

theorem fst_perm_of_zip_perm {damage health damage' health' : List Int}
    (hlen : damage.length = health.length) (hlen' : damage'.length = health'.length)
    (hperm : (List.zip damage' health').Perm (List.zip damage health)) :
    damage'.Perm damage ∧ health'.Perm health := by
  have h1 := hperm.map Prod.fst
  have h2 := hperm.map Prod.snd
  rw [List.map_fst_zip _ _ (le_of_eq hlen'), List.map_fst_zip _ _ (le_of_eq hlen)] at h1
  rw [List.map_snd_zip _ _ (le_of_eq hlen'.symm), List.map_snd_zip _ _ (le_of_eq hlen.symm)] at h2
  exact ⟨h1, h2⟩

theorem enemies_large :
    enemies 1 [100000, 3, 7] [100000, 5, 2] = [(100000, 100000), (3, 5), (7, 2)] := by
  simp [enemies, hitsRequired]

theorem enemies_example :
    enemies 4 [1, 2, 3, 4] [4, 5, 6, 8] = [(1, 1), (2, 2), (3, 2), (4, 2)] := by
  simp [enemies, hitsRequired_eq_iff]

/-- C1 (counterexample): with `power = 1`, `damage = [65536, 1]`, `health = [1, 65536]` the
comparator product `65536 * 65536` leaves the `int` range and wraps to `0`, the enemies are
visited in the wrong order and the returned total `4295098368` exceeds the cost `131073` of
killing them in input order; so the returned value is not a lower bound of the totals. -/
theorem minDamage_not_minimal :
    (minDamage 1 [65536, 1] [1, 65536]).ans = 4295098368
      ∧ orderCost [(65536, 1), (1, 65536)] = 131073
      ∧ ¬ (∀ σ : List (Int × Int), σ.Perm (enemies 1 [65536, 1] [1, 65536]) →
            (minDamage 1 [65536, 1] [1, 65536]).ans ≤ orderCost σ) := by
  have h2 : (minDamage 1 [65536, 1] [1, 65536]).ans = 4295098368 := by decide
  have h3 : orderCost [(65536, 1), (1, 65536)] = 131073 := by decide
  refine ⟨h2, h3, fun h => ?_⟩
  have he : enemies 1 [65536, 1] [1, 65536] = [(65536, 1), (1, 65536)] := by
    simp [enemies, hitsRequired]
  have h1 := h [(65536, 1), (1, 65536)] (by rw [he])
  rw [h2, h3] at h1
  exact absurd h1 (by decide)

/-- C1 (amended): for `power > 0` and equal-length sequences of positive `int` values, when
every product `damage[i] * hits[j]` of two different enemies `i ≠ j`, the products that the
comparator forms, stays below `2^31` and some kill order has a total below `2^63`, `minDamage`
returns the minimum over all kill orders of the total damage: no order costs less, and some
order costs exactly the returned value. -/
theorem minDamage_minimal (power : Int) (damage health : List Int) (hp : 0 < power)
    (hlen : damage.length = health.length) (hd : ∀ d ∈ damage, 0 < d)
    (hh : ∀ h ∈ health, 0 < h ∧ h < 2 ^ 31)
    (hprod : ∀ i, i < damage.length → ∀ j, j < health.length → i ≠ j →
      damage.getD i 0 * live_count (health.getD j 0) power < 2 ^ 31)
    (hfit : ∃ σ : List (Int × Int), σ.Perm (enemies power damage health) ∧ orderCost σ < 2 ^ 63) :
    (∀ σ : List (Int × Int), σ.Perm (enemies power damage health) →
        (minDamage power damage health).ans ≤ orderCost σ)
      ∧ ∃ σ : List (Int × Int), σ.Perm (enemies power damage health)
          ∧ orderCost σ = (minDamage power damage health).ans := by
  obtain ⟨S, hS, hsorted, heq⟩ := minDamage_sorted power damage health hp hlen hd hh
    (zip_bound_of_index power damage health hprod) hfit
  rw [heq]
  exact ⟨fun σ hσ => orderCost_sorted_le S hsorted σ (hσ.trans hS.symm), S, hS, rfl⟩

/-- C1 (witness): the example of the specification, `power = 4`, `damage = [1,2,3,4]`,
`health = [4,5,6,8]`, where the minimum is `39`; and `power = 1`, `damage = [100000,3,7]`,
`health = [100000,5,2]`, where only the product of the first enemy with itself, which the
comparator never forms, leaves the `int` range, and the minimum is `10000500035`. -/
theorem minDamage_minimal_witness :
    ((minDamage 4 [1, 2, 3, 4] [4, 5, 6, 8]).ans = 39
      ∧ (∀ σ : List (Int × Int), σ.Perm (enemies 4 [1, 2, 3, 4] [4, 5, 6, 8]) →
          (minDamage 4 [1, 2, 3, 4] [4, 5, 6, 8]).ans ≤ orderCost σ)
      ∧ ∃ σ : List (Int × Int), σ.Perm (enemies 4 [1, 2, 3, 4] [4, 5, 6, 8])
          ∧ orderCost σ = (minDamage 4 [1, 2, 3, 4] [4, 5, 6, 8]).ans)
      ∧ (minDamage 1 [100000, 3, 7] [100000, 5, 2]).ans = 10000500035
      ∧ ∀ σ : List (Int × Int), σ.Perm (enemies 1 [100000, 3, 7] [100000, 5, 2]) →
          (minDamage 1 [100000, 3, 7] [100000, 5, 2]).ans ≤ orderCost σ :=
  ⟨⟨by decide,
    minDamage_minimal 4 [1, 2, 3, 4] [4, 5, 6, 8] (by decide) rfl (by decide) (by decide)
      (by decide)
      ⟨[(1, 1), (2, 2), (3, 2), (4, 2)], by rw [enemies_example], by decide⟩⟩,
    by decide,
    (minDamage_minimal 1 [100000, 3, 7] [100000, 5, 2] (by decide) rfl (by decide) (by decide)
      (by decide)
      ⟨[(100000, 100000), (3, 5), (7, 2)], by rw [enemies_large], by decide⟩).1⟩

/-- C5 (counterexample): the pairs `(1,1), (1,46341), (46341,2)` with `power = 1` are ranked
cyclically by the comparator, because `46341 * 46341` leaves the `int` range; presenting them in
two different input orders gives the two different results `139029` and `2147673648`. -/
theorem minDamage_order_dependent :
    (List.zip [46341, 1, 1] [2, 1, 46341]).Perm (List.zip [1, 1, 46341] [1, 46341, 2])
      ∧ (minDamage 1 [1, 1, 46341] [1, 46341, 2]).ans = 139029
      ∧ (minDamage 1 [46341, 1, 1] [2, 1, 46341]).ans = 2147673648
      ∧ (minDamage 1 [1, 1, 46341] [1, 46341, 2]).ans
          ≠ (minDamage 1 [46341, 1, 1] [2, 1, 46341]).ans := by
  refine ⟨?_, ?_, ?_, ?_⟩ <;> decide

/-- C5 (amended): for `power > 0` and two equal-length inputs of positive `int` values whose
`(damage, health)` pairs are permutations of each other, when every product
`damage[i] * hits[j]` of two different enemies `i ≠ j`, the products that the comparator
forms, stays below `2^31` and some kill order has a total below `2^63`, `minDamage` returns
the same value on both inputs. -/
theorem minDamage_perm_invariant (power : Int) (damage health damage' health' : List Int)
    (hp : 0 < power) (hlen : damage.length = health.length)
    (hlen' : damage'.length = health'.length) (hd : ∀ d ∈ damage, 0 < d)
    (hh : ∀ h ∈ health, 0 < h ∧ h < 2 ^ 31)
    (hprod : ∀ i, i < damage.length → ∀ j, j < health.length → i ≠ j →
      damage.getD i 0 * live_count (health.getD j 0) power < 2 ^ 31)
    (hfit : ∃ σ : List (Int × Int), σ.Perm (enemies power damage health) ∧ orderCost σ < 2 ^ 63)
    (hperm : (List.zip damage' health').Perm (List.zip damage health)) :
    (minDamage power damage' health').ans = (minDamage power damage health).ans := by
  obtain ⟨hdp, hhp⟩ := fst_perm_of_zip_perm hlen hlen' hperm
  have hE := enemies_perm power hperm
  have hzip := zip_bound_of_index power damage health hprod
  obtain ⟨S, hS, hsorted, heq⟩ := minDamage_sorted power damage health hp hlen hd hh hzip hfit
  obtain ⟨σ, hσ, hσfit⟩ := hfit
  obtain ⟨S', hS', hsorted', heq'⟩ := minDamage_sorted power damage' health' hp hlen'
    (fun d hm => hd d (hdp.mem_iff.1 hm)) (fun h hm => hh h (hhp.mem_iff.1 hm))
    (fun a ha b hb hab => hzip a (hperm.mem_iff.1 ha) b (hperm.mem_iff.1 hb) hab)
    ⟨σ, hσ.trans hE.symm, hσfit⟩
  rw [heq, heq']
  have hSS : S'.Perm S := (hS'.trans hE).trans hS.symm
  exact le_antisymm (orderCost_sorted_le S' hsorted' S hSS.symm)
    (orderCost_sorted_le S hsorted S' hSS)

/-- C5 (witness): the example input and its reversal; and two orders of the enemies
`(100000,100000), (3,5), (7,2)` with `power = 1`, where only the product of the first enemy
with itself leaves the `int` range. -/
theorem minDamage_perm_invariant_witness :
    (minDamage 4 [4, 3, 2, 1] [8, 6, 5, 4]).ans = (minDamage 4 [1, 2, 3, 4] [4, 5, 6, 8]).ans
      ∧ (minDamage 1 [7, 100000, 3] [2, 100000, 5]).ans
          = (minDamage 1 [100000, 3, 7] [100000, 5, 2]).ans :=
  ⟨minDamage_perm_invariant 4 [1, 2, 3, 4] [4, 5, 6, 8] [4, 3, 2, 1] [8, 6, 5, 4] (by decide) rfl
    rfl (by decide) (by decide) (by decide)
    ⟨[(1, 1), (2, 2), (3, 2), (4, 2)], by rw [enemies_example], by decide⟩
    (by decide),
   minDamage_perm_invariant 1 [100000, 3, 7] [100000, 5, 2] [7, 100000, 3] [2, 100000, 5]
    (by decide) rfl rfl (by decide) (by decide) (by decide)
    ⟨[(100000, 100000), (3, 5), (7, 2)], by rw [enemies_large], by decide⟩
    (by decide)⟩

/-- C6: for a single enemy with `power`, `d`, `h` positive `int` values, `minDamage` returns
`d * ceil(h / power)`, and `live_count h power`, which is `h / power` when `power` divides `h`
and `h / power + 1` otherwise, is that ceiling. -/
theorem minDamage_single (power d h : Int) (hp : 0 < power) (hd : 0 < d) (hd2 : d < 2 ^ 31)
    (hh : 0 < h) (hh2 : h < 2 ^ 31) :
    (minDamage power [d] [h]).ans = d * hitsRequired h power
      ∧ live_count h power = hitsRequired h power
      ∧ live_count h power = (if h % power = 0 then h / power else h / power + 1) := by
  have hb := live_count_bounds hh hh2 hp
  have hq := live_count_eq_hitsRequired hh hh2 hp
  refine ⟨?_, hq, ?_⟩
  · rw [minDamage_eq power [d] [h] rfl]
    have hm : 0 ≤ d * live_count h power := mul_nonneg hd.le (by omega)
    have hm2 : d * live_count h power < 2 ^ 63 := by
      have h1 : d * live_count h power ≤ 2 ^ 31 * live_count h power :=
        mul_le_mul_of_nonneg_right hd2.le (by omega)
      have h2 : (2 : Int) ^ 31 * live_count h power ≤ 2 ^ 31 * 2 ^ 31 :=
        mul_le_mul_of_nonneg_left (by omega) (by norm_num)
      have h3 : (2 : Int) ^ 31 * 2 ^ 31 < 2 ^ 63 := by norm_num
      omega
    have hsort : stdSort cmp [(d, live_count h power)] = [(d, live_count h power)] := rfl
    simp only [List.map_cons, List.map_nil, List.zip_cons_cons, List.zip_nil_right, hsort,
      List.foldl_cons, List.foldl_nil, zero_add]
    rw [wrap64_of_range (x := d) (by omega) (by omega),
      wrap64_of_range (x := d * live_count h power) (by omega) hm2,
      wrap64_of_range (x := d * live_count h power) (by omega) hm2, hq]
  · have hdm := Int.emod_add_ediv h power
    have hq0 : 0 ≤ h / power := Int.ediv_nonneg hh.le hp.le
    have hqh : h / power ≤ h := Int.ediv_le_self _ hh.le
    unfold live_count
    rw [Int.tmod_eq_emod hh.le hp.le, Int.tdiv_eq_ediv hh.le hp.le]
    by_cases hr : h % power = 0
    · simp [hr]
    · simp only [hr, if_false]
      have hm0 := Int.emod_nonneg h (ne_of_gt hp)
      have hlt : h / power < h := by
        by_contra hc
        have he : h / power = h := by omega
        rw [he] at hdm
        have : h ≤ power * h := by nlinarith
        omega
      exact wrap32_of_range (by omega) (by omega)

/-- C6 (witness): one enemy with damage rate 3 and health 6 against power 4. -/
theorem minDamage_single_witness :
    (minDamage 4 [3] [6]).ans = 3 * hitsRequired 6 4
      ∧ live_count 6 4 = hitsRequired 6 4
      ∧ live_count 6 4 = (if (6 : Int) % 4 = 0 then 6 / 4 else 6 / 4 + 1) :=
  minDamage_single 4 3 6 (by decide) (by decide) (by decide) (by decide) (by decide)

end Bob
namespace TwoSum

theorem twoSumFrom_spec (target : Int) (rest : List Int) :
    ∀ (pre : List Int) (m : IntMap),
      (∀ x ∈ rest, -2 ^ 31 ≤ target - x ∧ target - x < 2 ^ 31) →
      (∀ k v, m k = some v → ∃ j : Nat, v = (j : Int) ∧ pre[j]? = some k) →
      (∀ k ∈ pre, (m k).isSome = true) →
      (twoSumFrom target rest pre.length m = []
          ∧ ∀ a b : Nat, a < b → pre.length ≤ b → ∀ x y : Int,
              (pre ++ rest)[a]? = some x → (pre ++ rest)[b]? = some y → x + y ≠ target)
        ∨ ∃ a b : Nat, twoSumFrom target rest pre.length m = [(a : Int), (b : Int)] ∧ a < b
            ∧ b < (pre ++ rest).length
            ∧ ∃ x y : Int, (pre ++ rest)[a]? = some x ∧ (pre ++ rest)[b]? = some y
                ∧ x + y = target := by
  induction rest with
  | nil =>
    intro pre m _ _ _
    left
    refine ⟨rfl, ?_⟩
    intro a b _ hb x y _ hy
    rw [List.append_nil] at hy
    have := (List.getElem?_eq_some_iff.1 hy).1
    omega
  | cons x rest ih =>
    intro pre m hno hsound hcompl
    have hx := hno x (List.mem_cons_self _ _)
    have hw : wrap32 (target - x) = target - x := wrap32_of_range hx.1 hx.2
    have hpx : (pre ++ x :: rest)[pre.length]? = some x := by
      rw [List.getElem?_append_right (le_refl _)]
      simp
    cases hm : m (target - x) with
    | some v =>
      right
      obtain ⟨j, hv, hj⟩ := hsound _ _ hm
      have hjlt : j < pre.length := (List.getElem?_eq_some_iff.1 hj).1
      refine ⟨j, pre.length, ?_, hjlt, by simp, target - x, x, ?_, hpx, by omega⟩
      · simp only [twoSumFrom, hw, hm, hv]
      · rw [List.getElem?_append_left hjlt]
        exact hj
    | none =>
      have hnone : ∀ k ∈ pre, k + x ≠ target := by
        intro k hk hkx
        have h1 := hcompl k hk
        have h2 : k = target - x := by omega
        rw [h2, hm] at h1
        exact absurd h1 (by simp)
      have hrec : twoSumFrom target (x :: rest) pre.length m
          = twoSumFrom target rest (pre ++ [x]).length (assign m x (pre.length : Int)) := by
        simp only [twoSumFrom, hw, hm, List.length_append, List.length_singleton]
      have happ : pre ++ x :: rest = (pre ++ [x]) ++ rest := by simp
      rw [hrec, happ]
      have hsound' : ∀ k v, assign m x (pre.length : Int) k = some v →
          ∃ j : Nat, v = (j : Int) ∧ (pre ++ [x])[j]? = some k := by
        intro k v hkv
        unfold assign at hkv
        by_cases hk : k = x
        · rw [if_pos hk] at hkv
          refine ⟨pre.length, (Option.some.inj hkv).symm, ?_⟩
          rw [List.getElem?_append_right (le_refl _), hk]
          simp
        · rw [if_neg hk] at hkv
          obtain ⟨j, hv, hj⟩ := hsound k v hkv
          refine ⟨j, hv, ?_⟩
          rw [List.getElem?_append_left (List.getElem?_eq_some_iff.1 hj).1]
          exact hj
      have hcompl' : ∀ k ∈ pre ++ [x], (assign m x (pre.length : Int) k).isSome = true := by
        intro k hk
        unfold assign
        by_cases hkx : k = x
        · simp [hkx]
        · rw [if_neg hkx]
          rcases List.mem_append.1 hk with h | h
          · exact hcompl k h
          · exact absurd (List.mem_singleton.1 h) hkx
      rcases ih (pre ++ [x]) (assign m x (pre.length : Int))
        (fun y hy => hno y (List.mem_cons_of_mem _ hy)) hsound' hcompl' with ⟨he, hall⟩ | hex
      · left
        refine ⟨he, ?_⟩
        intro a b hab hb u v hu hv
        by_cases hbe : b = pre.length
        · subst hbe
          rw [← happ, hpx] at hv
          have hu' : pre[a]? = some u := by
            rw [← happ, List.getElem?_append_left hab] at hu
            exact hu
          have hmem : u ∈ pre := List.getElem?_mem hu'
          have := hnone u hmem
          rw [← Option.some.inj hv]
          exact this
        · exact hall a b hab (by simp; omega) u v hu hv
      · right
        exact hex

/-- C10: when no subtraction `target - nums[i]` overflows, `twoSum` returns either the empty
list or two indices `i < j` inside `nums` whose values add up to `target`, and it returns the
empty list exactly when no two distinct indices have values adding up to `target`. -/
theorem twoSum_spec (nums : List Int) (target : Int)
    (hno : ∀ x ∈ nums, -2 ^ 31 ≤ target - x ∧ target - x < 2 ^ 31) :
    (twoSum nums target = []
        ∨ ∃ i j : Nat, twoSum nums target = [(i : Int), (j : Int)] ∧ i < j ∧ j < nums.length
            ∧ nums.getD i 0 + nums.getD j 0 = target)
      ∧ (twoSum nums target = [] ↔
          ¬ ∃ i j : Nat, i < nums.length ∧ j < nums.length ∧ i ≠ j
              ∧ nums.getD i 0 + nums.getD j 0 = target) := by
  have hgetD : ∀ (a : Nat) (x : Int), nums[a]? = some x → nums.getD a 0 = x := by
    intro a x h
    rw [List.getD_eq_getElem?_getD, h]
    rfl
  have hget : ∀ a : Nat, a < nums.length → nums[a]? = some (nums.getD a 0) := by
    intro a h
    rw [List.getD_eq_getElem?_getD, List.getElem?_eq_getElem h]
    rfl
  have hspec := twoSumFrom_spec target nums [] (fun _ => none) hno
    (fun k v h => absurd h (by simp)) (fun k h => absurd h (List.not_mem_nil _))
  simp only [List.length_nil, List.nil_append] at hspec
  change (twoSum nums target = [] ∧ _) ∨ (∃ a b : Nat, twoSum nums target = _ ∧ _) at hspec
  rcases hspec with ⟨he, hall⟩ | ⟨a, b, hr, hab, hb, x, y, hx, hy, hxy⟩
  · refine ⟨Or.inl he, ⟨fun _ => ?_, fun _ => he⟩⟩
    rintro ⟨i, j, hi, hj, hij, hsum⟩
    rcases Nat.lt_or_gt_of_ne hij with h | h
    · exact hall i j h (Nat.zero_le _) _ _ (hget i hi) (hget j hj) hsum
    · exact hall j i h (Nat.zero_le _) _ _ (hget j hj) (hget i hi) (by omega)
  · have hsum : nums.getD a 0 + nums.getD b 0 = target := by
      rw [hgetD a x hx, hgetD b y hy]
      exact hxy
    refine ⟨Or.inr ⟨a, b, hr, hab, hb, hsum⟩, ⟨fun he => ?_, fun hne => ?_⟩⟩
    · rw [hr] at he
      exact absurd he (by simp)
    · exact absurd ⟨a, b, by omega, hb, by omega, hsum⟩ hne

/-- C10 (witness): the demonstration of `main`, `nums = [2,7,11,15]` and `target = 9`, where
the call returns `[0, 1]`. -/
theorem twoSum_spec_witness :
    twoSum [2, 7, 11, 15] 9 = [0, 1]
      ∧ (twoSum [2, 7, 11, 15] 9 = [] ↔
          ¬ ∃ i j : Nat, i < [2, 7, 11, 15].length ∧ j < [2, 7, 11, 15].length ∧ i ≠ j
              ∧ ([2, 7, 11, 15] : List Int).getD i 0 + ([2, 7, 11, 15] : List Int).getD j 0 = 9) :=
  ⟨by decide, (twoSum_spec [2, 7, 11, 15] 9 (by decide)).2⟩

end TwoSum
namespace Palin

theorem borderAt_zero (w : List Char) (i : Nat) : BorderAt w i 0 :=
  ⟨Nat.zero_le _, fun _ ht => absurd ht (Nat.not_lt_zero _)⟩

/-- A border of a border is a border. -/
theorem borderAt_trans {w : List Char} {i k m : Nat} (hk : BorderAt w i k) (hk0 : 0 < k)
    (hm : BorderAt w (k - 1) m) : BorderAt w i m := by
  have hmk := hm.1
  have hki := hk.1
  refine ⟨by omega, fun t ht => ?_⟩
  rw [hm.2 t ht, hk.2 (k - 1 + 1 - m + t) (by omega)]
  exact congrArg (fun x => w[x]?) (by omega)

/-- A shorter border of the same word is a border of the longer border. -/
theorem borderAt_restrict {w : List Char} {i k m : Nat} (hk : BorderAt w i k)
    (hm : BorderAt w i m) (hmk : m < k) : BorderAt w (k - 1) m := by
  have hki := hk.1
  refine ⟨by omega, fun t ht => ?_⟩
  rw [hm.2 t ht, hk.2 (k - 1 + 1 - m + t) (by omega)]
  exact congrArg (fun x => w[x]?) (by omega)

/-- A border of `w[0..i]` of length `k + 1` is a border of `w[0..i-1]` of length `k` followed
by a character equal to `w[i]`. -/
theorem borderAt_succ {w : List Char} {i k : Nat} (hi : 0 < i) :
    BorderAt w i (k + 1) ↔ BorderAt w (i - 1) k ∧ w[k]? = w[i]? := by
  constructor
  · intro h
    have hki := h.1
    refine ⟨⟨by omega, fun t ht => ?_⟩, ?_⟩
    · rw [h.2 t (by omega)]
      exact congrArg (fun x => w[x]?) (by omega)
    · rw [h.2 k (by omega)]
      exact congrArg (fun x => w[x]?) (by omega)
  · rintro ⟨h, hc⟩
    have hki := h.1
    refine ⟨by omega, fun t ht => ?_⟩
    by_cases htk : t < k
    · rw [h.2 t htk]
      exact congrArg (fun x => w[x]?) (by omega)
    · have : t = k := by omega
      subst this
      rw [hc]
      exact congrArg (fun x => w[x]?) (by omega)

theorem fallback_spec {w : List Char} {table : List Nat} {i : Nat} (hok : TableOk w i table)
    (hi : 0 < i) (hin : i < w.length) (c : Char) :
    ∀ fuel j : Nat, j < fuel → BorderAt w (i - 1) j →
      (∀ k, BorderAt w (i - 1) k → w[k]? = some c → k ≤ j) →
      ∃ j1, fallback w table c fuel j = some j1 ∧ BorderAt w (i - 1) j1
        ∧ (∀ k, BorderAt w (i - 1) k → w[k]? = some c → k ≤ j1)
        ∧ (j1 = 0 ∨ w[j1]? = some c) := by
  intro fuel
  induction fuel with
  | zero => intro j hj; exact absurd hj (Nat.not_lt_zero _)
  | succ fuel ih =>
    intro j hj hb hmax
    have hji := hb.1
    by_cases hj0 : j > 0
    · have hjlt : j < w.length := by omega
      simp only [fallback, hj0, if_true, List.getElem?_eq_getElem hjlt]
      by_cases hc : c = w[j]
      · refine ⟨j, by simp [hc], hb, hmax, Or.inr ?_⟩
        rw [List.getElem?_eq_getElem hjlt, hc]
      · obtain ⟨j2, hj2, hmb⟩ := hok.2 (j - 1) (by omega)
        have hj2le := hmb.1.1
        have hstep := ih j2 (by omega) (borderAt_trans hb hj0 hmb.1) (by
          intro k hk hkc
          have hkj := hmax k hk hkc
          have hne : k ≠ j := by
            rintro rfl
            rw [List.getElem?_eq_getElem hjlt] at hkc
            exact hc (Option.some.inj hkc).symm
          exact hmb.2 k (borderAt_restrict hb hk (by omega)))
        simpa [hc, hj2] using hstep
    · have hz : j = 0 := by omega
      subst hz
      exact ⟨0, by simp [fallback], hb, hmax, Or.inl rfl⟩

theorem borderStep_spec {w : List Char} {table : List Nat} {i : Nat} (hok : TableOk w i table)
    (hi : 0 < i) (hin : i < w.length) :
    ∃ k, borderStep w i table = some (table.set i k) ∧ MaxBorderAt w i k := by
  obtain ⟨j0, hj0, hmb⟩ := hok.2 (i - 1) (by omega)
  have hci : w[i]? = some w[i] := List.getElem?_eq_getElem hin
  obtain ⟨j, hfb, hb, hmax, hend⟩ := fallback_spec hok hi hin w[i] (j0 + 1) j0 (by omega) hmb.1
    (fun k hk _ => hmb.2 k hk)
  have hjlt : j < w.length := by have := hb.1; omega
  have hstep : borderStep w i table = some (table.set i (if w[i] = w[j] then j + 1 else j)) := by
    simp only [borderStep, hj0, hci, hfb, List.getElem?_eq_getElem hjlt]
  refine ⟨_, hstep, ?_⟩
  by_cases hc : w[i] = w[j]
  · rw [if_pos hc]
    have hcj : w[j]? = w[i]? := by
      rw [hci, List.getElem?_eq_getElem hjlt, hc]
    refine ⟨(borderAt_succ hi).2 ⟨hb, hcj⟩, ?_⟩
    intro k1 hk1
    cases k1 with
    | zero => omega
    | succ k =>
      obtain ⟨h1, h2⟩ := (borderAt_succ hi).1 hk1
      have := hmax k h1 (by rw [h2, hci])
      omega
  · rw [if_neg hc]
    have hj0' : j = 0 := by
      rcases hend with h | h
      · exact h
      · rw [List.getElem?_eq_getElem hjlt] at h
        exact absurd (Option.some.inj h).symm hc
    subst hj0'
    refine ⟨borderAt_zero w i, ?_⟩
    intro k1 hk1
    cases k1 with
    | zero => omega
    | succ k =>
      obtain ⟨h1, h2⟩ := (borderAt_succ hi).1 hk1
      have hk0 := hmax k h1 (by rw [h2, hci])
      have hk0' : k = 0 := by omega
      subst hk0'
      rw [hci, List.getElem?_eq_getElem hjlt] at h2
      exact absurd (Option.some.inj h2).symm hc

theorem tableOk_set {w : List Char} {table : List Nat} {i k : Nat} (hok : TableOk w i table)
    (hin : i < w.length) (hk : MaxBorderAt w i k) : TableOk w (i + 1) (table.set i k) := by
  refine ⟨by rw [List.length_set]; exact hok.1, fun t ht => ?_⟩
  by_cases hti : t = i
  · subst hti
    refine ⟨k, ?_, hk⟩
    rw [List.getElem?_set_self (by rw [hok.1]; exact hin)]
  · obtain ⟨k2, h1, h2⟩ := hok.2 t (by omega)
    refine ⟨k2, ?_, h2⟩
    rw [List.getElem?_set_ne (fun h => hti h.symm)]
    exact h1

theorem tableOk_init (w : List Char) (hw : 0 < w.length) :
    TableOk w 1 (List.replicate w.length 0) := by
  refine ⟨List.length_replicate _ _, fun i hi => ?_⟩
  have hi0 : i = 0 := by omega
  subst hi0
  exact ⟨0, by simp [List.getElem?_replicate, hw], borderAt_zero w 0, fun k1 hk1 => hk1.1⟩

/-- The loop that fills the table ends, never reads outside a container, and leaves in every
entry the length of the longest border of the corresponding word. -/
theorem borderTable_spec (w : List Char) (hw : 0 < w.length) :
    ∃ table, borderTable w = some table ∧ TableOk w w.length table := by
  have hloop : ∀ m, m ≤ w.length - 1 →
      ∃ table, forLoop m (fun k st => st.bind (borderStep w (k + 1)))
          (some (List.replicate w.length 0)) = some table ∧ TableOk w (m + 1) table := by
    intro m
    induction m with
    | zero => intro _; exact ⟨_, rfl, tableOk_init w hw⟩
    | succ m ih =>
      intro hm
      obtain ⟨table, ht, hok⟩ := ih (by omega)
      obtain ⟨k, hk, hmax⟩ := borderStep_spec hok (Nat.succ_pos m) (by omega)
      refine ⟨table.set (m + 1) k, ?_, tableOk_set hok (by omega) hmax⟩
      rw [forLoop_succ, ht]
      exact hk
  obtain ⟨table, ht, hok⟩ := hloop (w.length - 1) (le_refl _)
  refine ⟨table, ht, ?_⟩
  have : w.length - 1 + 1 = w.length := by omega
  rw [this] at hok
  exact hok


theorem probe_length (s : List Char) : (probe s).length = 2 * s.length + 1 := by
  simp [probe]
  omega

theorem probe_left (s : List Char) {t : Nat} (ht : t < s.length) : (probe s)[t]? = s[t]? := by
  unfold probe
  rw [List.getElem?_append_left ht]

theorem probe_mid (s : List Char) : (probe s)[s.length]? = some '#' := by
  unfold probe
  rw [List.getElem?_append_right (le_refl _)]
  simp

theorem probe_right (s : List Char) {t : Nat} (ht : t < s.length) :
    (probe s)[s.length + 1 + t]? = s[s.length - 1 - t]? := by
  unfold probe
  rw [List.getElem?_append_right (by omega)]
  have e : s.length + 1 + t - s.length = t + 1 := by omega
  rw [e, List.getElem?_cons_succ, List.getElem?_reverse ht]

theorem isPalindrome_take_iff (s : List Char) {k : Nat} (hk : k ≤ s.length) :
    IsPalindrome (s.take k) ↔ ∀ t, t < k → s[t]? = s[k - 1 - t]? := by
  have hlen : (s.take k).length = k := by rw [List.length_take]; omega
  constructor
  · intro h t ht
    have h1 : (s.take k)[t]? = s[t]? := List.getElem?_take_of_lt ht
    rw [← h1, ← h]
    rw [List.getElem?_reverse (by omega), hlen, List.getElem?_take_of_lt (by omega)]
  · intro h
    apply List.ext_getElem?
    intro t
    by_cases ht : t < k
    · rw [List.getElem?_reverse (by omega), hlen, List.getElem?_take_of_lt (by omega),
        List.getElem?_take_of_lt ht]
      exact (h t ht).symm
    · rw [List.getElem?_eq_none (by simp; omega), List.getElem?_eq_none (by omega)]

/-- A border of the probe that is no longer than `s` is a palindromic beginning of `s`. -/
theorem probe_border_iff (s : List Char) {k : Nat} (hk : k ≤ s.length) :
    BorderAt (probe s) (2 * s.length) k ↔ IsPalindrome (s.take k) := by
  rw [isPalindrome_take_iff s hk]
  constructor
  · intro h t ht
    have h1 := h.2 t ht
    rw [probe_left s (by omega)] at h1
    have e : 2 * s.length + 1 - k + t = s.length + 1 + (s.length - k + t) := by omega
    rw [e, probe_right s (by omega)] at h1
    rw [h1]
    exact congrArg (fun x => s[x]?) (by omega)
  · intro h
    refine ⟨by omega, fun t ht => ?_⟩
    have e : 2 * s.length + 1 - k + t = s.length + 1 + (s.length - k + t) := by omega
    rw [probe_left s (by omega), e, probe_right s (by omega), h t ht]
    exact congrArg (fun x => s[x]?) (by omega)

/-- When `s` does not contain the separator, no border of the probe is longer than `s`. -/
theorem probe_border_le (s : List Char) (hs : '#' ∉ s) {k : Nat}
    (h : BorderAt (probe s) (2 * s.length) k) : k ≤ s.length := by
  by_contra hc
  have hk := h.1
  have h1 := h.2 s.length (by omega)
  have e : 2 * s.length + 1 - k + s.length = s.length + 1 + (2 * s.length - k) := by omega
  rw [probe_mid, e, probe_right s (by omega)] at h1
  exact hs (List.getElem?_mem h1.symm)

/-- What the call does, in terms of `last`, the length of the longest border of the probe:
it prepends the reverse of `s[last..]` when `last ≤ s.length()` and raises
`std::out_of_range` otherwise. -/
theorem shortestPalindrome_eq (s : List Char) :
    ∃ last, MaxBorderAt (probe s) (2 * s.length) last ∧ (s ≠ [] → 1 ≤ last)
      ∧ shortestPalindrome s
          = if last ≤ s.length then Outcome.ok ((s.drop last).reverse ++ s)
            else Outcome.outOfRange := by
  obtain ⟨table, ht, hok⟩ := borderTable_spec (probe s) (by rw [probe_length]; omega)
  obtain ⟨last, hl, hmax⟩ := hok.2 (2 * s.length) (by rw [probe_length]; omega)
  have hlast : table.getLast? = some last := by
    rw [List.getLast?_eq_getElem?, hok.1, probe_length]
    exact hl
  have hpos : s ≠ [] → 1 ≤ last := by
    intro hne
    have hn : 0 < s.length := List.length_pos.2 hne
    apply hmax.2 1
    refine ⟨by omega, fun t ht => ?_⟩
    have ht0 : t = 0 := by omega
    subst ht0
    have e : 2 * s.length + 1 - 1 + 0 = s.length + 1 + (s.length - 1) := by omega
    rw [probe_left s hn, e, probe_right s (by omega)]
    exact congrArg (fun x => s[x]?) (by omega)
  refine ⟨last, hmax, hpos, ?_⟩
  have ht' : borderTable (s ++ '#' :: s.reverse) = some table := ht
  unfold shortestPalindrome
  simp only [ht', hlast]
  by_cases hle : last ≤ s.length
  · have hcount : (s.drop last).length ≤ sizeMinusOne s.length := by
      rw [List.length_drop]
      unfold sizeMinusOne
      by_cases h0 : s.length = 0
      · rw [if_pos h0]
        omega
      · rw [if_neg h0]
        have := hpos (fun h => h0 (by rw [h]; rfl))
        omega
    have hsub : substr s last (sizeMinusOne s.length) = some (s.drop last) := by
      unfold substr
      rw [if_neg (by omega), List.take_of_length_le hcount]
    simp only [hsub, if_pos hle]
  · have hsub : substr s last (sizeMinusOne s.length) = none := by
      unfold substr
      rw [if_pos (by omega)]
    simp only [hsub, if_neg hle]

theorem reverse_drop_append_palindrome (s : List Char) {k : Nat}
    (hp : IsPalindrome (s.take k)) : IsPalindrome ((s.drop k).reverse ++ s) := by
  unfold IsPalindrome at hp ⊢
  have e : s.reverse = (s.drop k).reverse ++ s.take k := by
    conv_lhs => rw [← List.take_append_drop k s]
    rw [List.reverse_append, hp]
  rw [List.reverse_append, List.reverse_reverse, e, List.append_assoc, List.take_append_drop]

/-- A palindrome that ends with `s` and is shorter than `2 * s.length - k` forces a
palindromic beginning of `s` that is longer than `k`. -/
theorem palindrome_suffix_long (s p : List Char) (hp : IsPalindrome p) (hs : s <:+ p) :
    IsPalindrome (s.take (2 * s.length - p.length)) := by
  obtain ⟨q, rfl⟩ := hs
  by_cases hq : s.length ≤ q.length
  · have : 2 * s.length - (q ++ s).length = 0 := by simp; omega
    rw [this]
    rfl
  · have hm : 2 * s.length - (q ++ s).length = s.length - q.length := by simp; omega
    rw [hm, isPalindrome_take_iff s (by omega)]
    intro t ht
    have h1 : ∀ x, x < s.length → (q ++ s)[q.length + x]? = s[x]? := by
      intro x _
      rw [List.getElem?_append_right (by omega)]
      exact congrArg (fun y => s[y]?) (by omega)
    have h2 : (q ++ s)[q.length + t]? = (q ++ s).reverse[q.length + t]? := by rw [hp]
    rw [List.getElem?_reverse (by simp; omega)] at h2
    rw [← h1 t (by omega), h2, ← h1 (s.length - q.length - 1 - t) (by omega)]
    exact congrArg (fun y => (q ++ s)[y]?) (by simp; omega)


/-- When `last`, the longest border of the probe, is at most `s.length()`, the first `last`
characters of `s` are its longest palindromic beginning. -/
theorem maxBorder_palindrome (s : List Char) {last : Nat}
    (hmax : MaxBorderAt (probe s) (2 * s.length) last) (hle : last ≤ s.length) :
    IsPalindrome (s.take last)
      ∧ ∀ k, k ≤ s.length → IsPalindrome (s.take k) → k ≤ last :=
  ⟨(probe_border_iff s hle).1 hmax.1, fun k hk hp => hmax.2 k ((probe_border_iff s hk).2 hp)⟩

/-- C2: for `s` without the separator `'#'`, the call returns `front ++ s` for some `front`,
the result is a palindrome, and no palindrome ending with `s` is shorter. -/
theorem shortestPalindrome_shortest (s : List Char) (hs : '#' ∉ s) :
    ∃ front : List Char, shortestPalindrome s = Outcome.ok (front ++ s)
      ∧ IsPalindrome (front ++ s)
      ∧ ∀ p : List Char, IsPalindrome p → s <:+ p → (front ++ s).length ≤ p.length := by
  obtain ⟨last, hmax, -, heq⟩ := shortestPalindrome_eq s
  have hle : last ≤ s.length := probe_border_le s hs hmax.1
  obtain ⟨hpal, hlong⟩ := maxBorder_palindrome s hmax hle
  rw [if_pos hle] at heq
  refine ⟨(s.drop last).reverse, heq, reverse_drop_append_palindrome s hpal, ?_⟩
  intro p hp hsp
  have hlen : s.length ≤ p.length := hsp.length_le
  have hk := hlong (2 * s.length - p.length) (by omega) (palindrome_suffix_long s p hp hsp)
  simp only [List.length_append, List.length_reverse, List.length_drop]
  omega

/-- C2 (witness): `"abcd"` gives `"dcb" ++ "abcd"`. -/
theorem shortestPalindrome_shortest_witness :
    ∃ front : List Char, shortestPalindrome "abcd".toList = Outcome.ok (front ++ "abcd".toList)
      ∧ IsPalindrome (front ++ "abcd".toList)
      ∧ ∀ p : List Char, IsPalindrome p → "abcd".toList <:+ p →
          (front ++ "abcd".toList).length ≤ p.length :=
  shortestPalindrome_shortest "abcd".toList (by decide)

/-- C3 (counterexample): on the string `"#"` the call leaves through `std::out_of_range`, so
it returns no palindrome. -/
theorem shortestPalindrome_hash_throws :
    shortestPalindrome "#".toList = Outcome.outOfRange
      ∧ ¬ ∃ r : List Char, shortestPalindrome "#".toList = Outcome.ok r ∧ r = r.reverse := by
  have h : shortestPalindrome "#".toList = Outcome.outOfRange := by decide
  refine ⟨h, ?_⟩
  rintro ⟨r, hr, -⟩
  rw [h] at hr
  cases hr

/-- C3 (amended): for every string the call either raises `std::out_of_range` or returns a
palindrome, and for a string without `'#'` it returns a palindrome. -/
theorem shortestPalindrome_palindrome (s : List Char) :
    (shortestPalindrome s = Outcome.outOfRange
        ∨ ∃ r : List Char, shortestPalindrome s = Outcome.ok r ∧ r = r.reverse)
      ∧ ('#' ∉ s → ∃ r : List Char, shortestPalindrome s = Outcome.ok r ∧ r = r.reverse) := by
  obtain ⟨last, hmax, -, heq⟩ := shortestPalindrome_eq s
  have hok : last ≤ s.length →
      ∃ r : List Char, shortestPalindrome s = Outcome.ok r ∧ r = r.reverse := by
    intro hle
    rw [if_pos hle] at heq
    exact ⟨_, heq,
      (reverse_drop_append_palindrome s (maxBorder_palindrome s hmax hle).1).symm⟩
  constructor
  · by_cases hle : last ≤ s.length
    · exact Or.inr (hok hle)
    · rw [if_neg hle] at heq
      exact Or.inl heq
  · intro hs
    exact hok (probe_border_le s hs hmax.1)

/-- C4 (counterexample): on the string `"a#a"` the call leaves through `std::out_of_range`,
so no result ends with the input. -/
theorem shortestPalindrome_hash_no_suffix :
    shortestPalindrome "a#a".toList = Outcome.outOfRange
      ∧ ¬ ∃ r : List Char, shortestPalindrome "a#a".toList = Outcome.ok r
          ∧ r.drop (r.length - "a#a".toList.length) = "a#a".toList := by
  have h : shortestPalindrome "a#a".toList = Outcome.outOfRange := by decide
  refine ⟨h, ?_⟩
  rintro ⟨r, hr, -⟩
  rw [h] at hr
  cases hr

/-- C4 (amended): for every string the call either raises `std::out_of_range` or returns a
string whose last `len(s)` characters are `s`, and for a string without `'#'` it returns such a
string. -/
theorem shortestPalindrome_ends_with (s : List Char) :
    (shortestPalindrome s = Outcome.outOfRange
        ∨ ∃ r : List Char, shortestPalindrome s = Outcome.ok r
            ∧ r.drop (r.length - s.length) = s)
      ∧ ('#' ∉ s → ∃ r : List Char, shortestPalindrome s = Outcome.ok r
            ∧ r.drop (r.length - s.length) = s) := by
  obtain ⟨last, hmax, -, heq⟩ := shortestPalindrome_eq s
  have hok : last ≤ s.length →
      ∃ r : List Char, shortestPalindrome s = Outcome.ok r
        ∧ r.drop (r.length - s.length) = s := by
    intro hle
    rw [if_pos hle] at heq
    refine ⟨_, heq, ?_⟩
    have e : ((s.drop last).reverse ++ s).length - s.length = (s.drop last).reverse.length := by
      simp
    rw [e, List.drop_left]
  constructor
  · by_cases hle : last ≤ s.length
    · exact Or.inr (hok hle)
    · rw [if_neg hle] at heq
      exact Or.inl heq
  · intro hs
    exact hok (probe_border_le s hs hmax.1)

/-- C7: the two documented examples. -/
theorem shortestPalindrome_examples :
    shortestPalindrome "aacecaaa".toList = Outcome.ok "aaacecaaa".toList
      ∧ shortestPalindrome "abcd".toList = Outcome.ok "dcbabcd".toList := by
  constructor <;> decide

/-- C8 (counterexample): the one-character string `"#"` is a palindrome, and the call does
not return it: it leaves through `std::out_of_range`. -/
theorem shortestPalindrome_hash_changed :
    IsPalindrome "#".toList ∧ shortestPalindrome "#".toList ≠ Outcome.ok "#".toList := by
  constructor <;> decide

/-- C8 (amended): for a palindrome `s` the call either raises `std::out_of_range` or returns
`s` unchanged, and for a palindrome without `'#'`, such as the empty string, it returns `s`
unchanged. -/
theorem shortestPalindrome_of_palindrome (s : List Char) (hp : IsPalindrome s) :
    (shortestPalindrome s = Outcome.outOfRange ∨ shortestPalindrome s = Outcome.ok s)
      ∧ ('#' ∉ s → shortestPalindrome s = Outcome.ok s) := by
  obtain ⟨last, hmax, -, heq⟩ := shortestPalindrome_eq s
  have hge : s.length ≤ last := by
    apply hmax.2
    apply (probe_border_iff s (le_refl _)).2
    rw [List.take_length]
    exact hp
  have hok : last ≤ s.length → shortestPalindrome s = Outcome.ok s := by
    intro hle
    have hl : last = s.length := le_antisymm hle hge
    rw [if_pos hle, hl, List.drop_length] at heq
    exact heq
  constructor
  · by_cases hle : last ≤ s.length
    · exact Or.inr (hok hle)
    · rw [if_neg hle] at heq
      exact Or.inl heq
  · intro hs
    exact hok (probe_border_le s hs hmax.1)

/-- C8 (witness): the palindrome `"abcba"`, next to the empty and a one-character string. -/
theorem shortestPalindrome_of_palindrome_witness :
    shortestPalindrome "abcba".toList = Outcome.ok "abcba".toList
      ∧ shortestPalindrome [] = Outcome.ok []
      ∧ shortestPalindrome "a".toList = Outcome.ok "a".toList :=
  ⟨(shortestPalindrome_of_palindrome "abcba".toList (by decide)).2 (by decide),
    (shortestPalindrome_of_palindrome [] (by decide)).2 (by decide),
    (shortestPalindrome_of_palindrome "a".toList (by decide)).2 (by decide)⟩


/-- The index form and the list form of a border agree. -/
theorem borderAt_isBorder {w : List Char} {i k : Nat} (hi : i < w.length)
    (h : BorderAt w i k) : IsBorder (w.take k) (w.take (i + 1)) := by
  have hk := h.1
  have hl1 : (w.take k).length = k := by rw [List.length_take]; omega
  have hl2 : (w.take (i + 1)).length = i + 1 := by rw [List.length_take]; omega
  refine ⟨by omega, List.take_prefix_take_left w (by omega), ?_⟩
  rw [List.suffix_iff_eq_drop, hl1, hl2]
  apply List.ext_getElem?
  intro t
  rw [List.getElem?_drop]
  by_cases ht : t < k
  · rw [List.getElem?_take_of_lt ht, List.getElem?_take_of_lt (by omega)]
    exact h.2 t ht
  · rw [List.getElem?_take_eq_none (by omega), List.getElem?_take_eq_none (by omega)]

theorem isBorder_borderAt {w u : List Char} {i : Nat} (hi : i < w.length)
    (h : IsBorder u (w.take (i + 1))) : u = w.take u.length ∧ BorderAt w i u.length := by
  obtain ⟨hlen, hpre, hsuf⟩ := h
  have hl2 : (w.take (i + 1)).length = i + 1 := by rw [List.length_take]; omega
  rw [hl2] at hlen
  have h1 : u = w.take u.length := by
    have := List.prefix_iff_eq_take.1 hpre
    rw [List.take_take, Nat.min_eq_left (by omega)] at this
    exact this
  have h2 : u = List.drop (i + 1 - u.length) (w.take (i + 1)) := by
    have := List.suffix_iff_eq_drop.1 hsuf
    rw [hl2] at this
    exact this
  refine ⟨h1, by omega, fun t ht => ?_⟩
  have e1 : u[t]? = w[t]? := by
    conv_lhs => rw [h1]
    rw [List.getElem?_take_of_lt ht]
  have e2 : u[t]? = w[i + 1 - u.length + t]? := by
    conv_lhs => rw [h2]
    rw [List.getElem?_drop, List.getElem?_take_of_lt (by omega)]
  rw [← e1, e2]

/-- The table and its last entry for the probe of `s`. -/
theorem probe_table_last (s : List Char) :
    ∃ table last, borderTable (probe s) = some table ∧ table.getLast? = some last
      ∧ MaxBorderAt (probe s) (2 * s.length) last ∧ (s ≠ [] → 1 ≤ last) := by
  obtain ⟨table, ht, hok⟩ := borderTable_spec (probe s) (by rw [probe_length]; omega)
  obtain ⟨last, hl, hmax⟩ := hok.2 (2 * s.length) (by rw [probe_length]; omega)
  refine ⟨table, last, ht, ?_, hmax, ?_⟩
  · rw [List.getLast?_eq_getElem?, hok.1, probe_length]
    exact hl
  · intro hne
    have hn : 0 < s.length := List.length_pos.2 hne
    apply hmax.2 1
    refine ⟨by omega, fun t ht => ?_⟩
    have ht0 : t = 0 := by omega
    subst ht0
    have e : 2 * s.length + 1 - 1 + 0 = s.length + 1 + (s.length - 1) := by omega
    rw [probe_left s hn, e, probe_right s (by omega)]
    exact congrArg (fun x => s[x]?) (by omega)

/-- The end of the call, once the table and its last entry are known. -/
theorem shortestPalindrome_of_last {s : List Char} {table : List Nat} {last : Nat}
    (ht : borderTable (probe s) = some table) (hl : table.getLast? = some last) :
    shortestPalindrome s
      = match substr s last (sizeMinusOne s.length) with
        | none => Outcome.outOfRange
        | some ans => Outcome.ok (ans.reverse ++ s) := by
  have ht1 : borderTable (s ++ '#' :: s.reverse) = some table := ht
  unfold shortestPalindrome
  simp only [ht1, hl]

/-- C17: for `s` without `'#'`, the last entry of the table of the probe
`s + "#" + reverse(s)` is the largest `L ≤ len(s)` such that the first `L` characters of `s`
form a palindrome. -/
theorem last_is_longest_palindromic_beginning (s : List Char) (hs : '#' ∉ s) :
    ∃ table last, borderTable (s ++ '#' :: s.reverse) = some table
      ∧ table.getLast? = some last ∧ last ≤ s.length ∧ IsPalindrome (s.take last)
      ∧ ∀ L, L ≤ s.length → IsPalindrome (s.take L) → L ≤ last := by
  obtain ⟨table, last, ht, hl, hmax, -⟩ := probe_table_last s
  have hle : last ≤ s.length := probe_border_le s hs hmax.1
  obtain ⟨hpal, hlong⟩ := maxBorder_palindrome s hmax hle
  exact ⟨table, last, ht, hl, hle, hpal, hlong⟩

/-- C17 (witness): for `"aacecaaa"` the last entry is `7`, the length of `"aacecaa"`. -/
theorem last_is_longest_palindromic_beginning_witness :
    ∃ table last, borderTable ("aacecaaa".toList ++ '#' :: "aacecaaa".toList.reverse)
        = some table
      ∧ table.getLast? = some last ∧ last ≤ "aacecaaa".toList.length
      ∧ IsPalindrome ("aacecaaa".toList.take last)
      ∧ ∀ L, L ≤ "aacecaaa".toList.length → IsPalindrome ("aacecaaa".toList.take L) →
          L ≤ last :=
  last_is_longest_palindromic_beginning "aacecaaa".toList (by decide)

/-- C18: for a non-empty `w` the loop that fills the table ends and leaves in every entry
`i` the length `k ≤ i` of the longest border of `w[0..i]`, that is of the longest proper
prefix of `w[0..i]` that is also a suffix of it; every assignment `j = table[j - 1]` of the
inner loop, made with `j > 0`, yields a smaller `j`. -/
theorem borderTable_longest_border (w : List Char) (hw : w ≠ []) :
    ∃ table, borderTable w = some table ∧ table.length = w.length
      ∧ (∀ i, i < w.length → ∃ k, table[i]? = some k ∧ k ≤ i
          ∧ IsBorder (w.take k) (w.take (i + 1))
          ∧ ∀ u, IsBorder u (w.take (i + 1)) → u.length ≤ k)
      ∧ ∀ j, 0 < j → j ≤ w.length → ∃ j1, table[j - 1]? = some j1 ∧ j1 < j := by
  obtain ⟨table, ht, hok⟩ := borderTable_spec w (List.length_pos.2 hw)
  refine ⟨table, ht, hok.1, ?_, ?_⟩
  · intro i hi
    obtain ⟨k, hk, hmax⟩ := hok.2 i hi
    exact ⟨k, hk, hmax.1.1, borderAt_isBorder hi hmax.1,
      fun u hu => hmax.2 _ (isBorder_borderAt hi hu).2⟩
  · intro j hj hjw
    obtain ⟨k, hk, hmax⟩ := hok.2 (j - 1) (by omega)
    have := hmax.1.1
    exact ⟨k, hk, by omega⟩

/-- C18 (witness): the table of `"aabaaab"` is `[0,1,0,1,2,2,3]`. -/
theorem borderTable_longest_border_witness :
    borderTable "aabaaab".toList = some [0, 1, 0, 1, 2, 2, 3]
      ∧ ∃ table, borderTable "aabaaab".toList = some table
        ∧ table.length = "aabaaab".toList.length
        ∧ (∀ i, i < "aabaaab".toList.length → ∃ k, table[i]? = some k ∧ k ≤ i
            ∧ IsBorder ("aabaaab".toList.take k) ("aabaaab".toList.take (i + 1))
            ∧ ∀ u, IsBorder u ("aabaaab".toList.take (i + 1)) → u.length ≤ k)
        ∧ ∀ j, 0 < j → j ≤ "aabaaab".toList.length →
            ∃ j1, table[j - 1]? = some j1 ∧ j1 < j :=
  ⟨by decide, borderTable_longest_border "aabaaab".toList (by decide)⟩

/-- C19: for a non-empty `s` without `'#'` the last entry `last` of the table satisfies
`1 ≤ last ≤ len(s)`; the call `s.substr(last, len(s) - 1)` does not throw and returns the
whole rest `s[last..]`, so that the result is the reverse of `s[last..]` followed by `s`.
For the empty string the result is the empty string. -/
theorem substr_returns_rest (s : List Char) (hne : s ≠ []) (hs : '#' ∉ s) :
    (∃ table last, borderTable (s ++ '#' :: s.reverse) = some table
        ∧ table.getLast? = some last ∧ 1 ≤ last ∧ last ≤ s.length
        ∧ sizeMinusOne s.length = s.length - 1
        ∧ substr s last (s.length - 1) = some (s.drop last)
        ∧ shortestPalindrome s = Outcome.ok ((s.drop last).reverse ++ s))
      ∧ shortestPalindrome [] = Outcome.ok [] := by
  refine ⟨?_, by decide⟩
  obtain ⟨table, last, ht, hl, hmax, hpos⟩ := probe_table_last s
  have hle : last ≤ s.length := probe_border_le s hs hmax.1
  have h1 : 1 ≤ last := hpos hne
  have hn : 0 < s.length := List.length_pos.2 hne
  have hsize : sizeMinusOne s.length = s.length - 1 := by
    unfold sizeMinusOne
    rw [if_neg (by omega)]
  have hsub : substr s last (s.length - 1) = some (s.drop last) := by
    unfold substr
    rw [if_neg (by omega), List.take_of_length_le (by rw [List.length_drop]; omega)]
  refine ⟨table, last, ht, hl, h1, hle, hsize, hsub, ?_⟩
  rw [shortestPalindrome_of_last ht hl, hsize, hsub]

/-- C19 (witness): `"abcd"`, where `last = 1` and `"dcb"` is prepended. -/
theorem substr_returns_rest_witness :
    shortestPalindrome "abcd".toList = Outcome.ok "dcbabcd".toList
      ∧ (∃ table last, borderTable ("abcd".toList ++ '#' :: "abcd".toList.reverse) = some table
          ∧ table.getLast? = some last ∧ 1 ≤ last ∧ last ≤ "abcd".toList.length
          ∧ sizeMinusOne "abcd".toList.length = "abcd".toList.length - 1
          ∧ substr "abcd".toList last ("abcd".toList.length - 1) = some ("abcd".toList.drop last)
          ∧ shortestPalindrome "abcd".toList
              = Outcome.ok (("abcd".toList.drop last).reverse ++ "abcd".toList)) :=
  ⟨by decide, (substr_returns_rest "abcd".toList (by decide) (by decide)).1⟩

end Palin
theorem wrap64_exists (x : Int) : ∃ k : Int, wrap64 x = x + 2 ^ 64 * k := by
  refine ⟨-((x + 2 ^ 63) / 2 ^ 64), ?_⟩
  unfold wrap64
  have := Int.emod_add_ediv (x + 2 ^ 63) (2 ^ 64)
  omega

theorem wrap64_add_mul (x k : Int) : wrap64 (x + 2 ^ 64 * k) = wrap64 x := by
  unfold wrap64
  have e : x + 2 ^ 64 * k + 2 ^ 63 = x + 2 ^ 63 + 2 ^ 64 * k := by ring
  rw [e, Int.add_mul_emod_self_left]

theorem wrap64_congr {x y : Int} (k : Int) (h : x = y + 2 ^ 64 * k) : wrap64 x = wrap64 y := by
  rw [h, wrap64_add_mul]

namespace Bob

theorem foldl_dps_wrap (l : List (Int × Int)) (s : Int) :
    l.foldl (fun acc e => wrap64 (acc + e.1)) (wrap64 s) = wrap64 (s + (l.map Prod.fst).sum) := by
  induction l generalizing s with
  | nil => simp
  | cons e r ih =>
    simp only [List.foldl_cons, List.map_cons, List.sum_cons]
    obtain ⟨k, hk⟩ := wrap64_exists s
    have e1 : wrap64 (wrap64 s + e.1) = wrap64 (s + e.1) :=
      wrap64_congr k (by rw [hk]; ring)
    rw [e1, ih]
    exact congrArg wrap64 (by ring)

theorem foldl_ans_wrap (l : List (Int × Int)) (a d : Int) :
    l.foldl (fun st e => (wrap64 (st.1 + wrap64 (st.2 * e.2)), wrap64 (st.2 - e.1)))
        (wrap64 a, wrap64 d)
      = (wrap64 (a + orderCost l + (d - (l.map Prod.fst).sum) * (l.map Prod.snd).sum),
         wrap64 (d - (l.map Prod.fst).sum)) := by
  induction l generalizing a d with
  | nil => simp [orderCost]
  | cons e r ih =>
    simp only [List.foldl_cons, List.map_cons, List.sum_cons, orderCost]
    obtain ⟨k1, hk1⟩ := wrap64_exists a
    obtain ⟨k2, hk2⟩ := wrap64_exists d
    obtain ⟨k3, hk3⟩ := wrap64_exists (wrap64 d * e.2)
    have e1 : wrap64 (wrap64 a + wrap64 (wrap64 d * e.2)) = wrap64 (a + d * e.2) :=
      wrap64_congr (k1 + k3 + k2 * e.2) (by rw [hk3, hk1, hk2]; ring)
    have e2 : wrap64 (wrap64 d - e.1) = wrap64 (d - e.1) :=
      wrap64_congr k2 (by rw [hk2]; ring)
    rw [e1, e2, ih]
    refine Prod.ext (congrArg wrap64 ?_) (congrArg wrap64 ?_)
    · ring
    · ring

/-- The last two loops compute the cost of the order they are given, reduced to 64 bits. -/
theorem totalOf_eq (pairs : List (Int × Int)) (damage health : List Int)
    (hd : damage.length = pairs.length) (hh : health.length = pairs.length) :
    totalOf pairs damage health = wrap64 (orderCost pairs) := by
  unfold totalOf
  rw [writeBackLoop_eq _ _ _ _ _ (le_of_eq hd) (le_refl _) (by omega)]
  simp only
  rw [accumulateLoop_eq _ _ _ _ (by simp [hd]) (by simp [hd, hh])]
  have e1 : List.drop damage.length damage = [] := List.drop_length _
  have e2 : List.drop damage.length health = [] := List.drop_of_length_le (by omega)
  have e3 : List.take damage.length pairs = pairs := List.take_of_length_le (by omega)
  have w0 : wrap64 0 = 0 := by decide
  rw [e1, e2, e3]
  simp only [List.append_nil]
  rw [List.take_of_length_le (by simp [hd]), List.take_of_length_le (by simp [hd]),
    zip_map_fst_map_snd]
  have h1 := foldl_dps_wrap pairs 0
  rw [w0, zero_add] at h1
  have h2 := foldl_ans_wrap pairs 0 (pairs.map Prod.fst).sum
  rw [w0] at h2
  rw [h1, h2]
  exact congrArg wrap64 (by ring)

theorem cmp_eq_of_int_range {a b : Int × Int} (h1 : -2 ^ 31 ≤ a.1 * b.2)
    (h2 : a.1 * b.2 < 2 ^ 31) (h3 : -2 ^ 31 ≤ b.1 * a.2) (h4 : b.1 * a.2 < 2 ^ 31) :
    cmp a b = decide (b.1 * a.2 < a.1 * b.2) := by
  unfold cmp
  rw [wrap32_of_range h1 h2, wrap32_of_range h3 h4]

theorem orderCost_swap (l1 l2 : List (Int × Int)) (a b : Int × Int)
    (hkey : a.1 * b.2 = b.1 * a.2) :
    orderCost (l1 ++ a :: b :: l2) = orderCost (l1 ++ b :: a :: l2) := by
  rw [orderCost_append, orderCost_append]
  simp only [orderCost, List.map_cons, List.sum_cons]
  linear_combination (-1 : Int) * hkey

theorem orderCost_eq_of_sorted {l l1 : List (Int × Int)} (hperm : l.Perm l1)
    (hs : l.Pairwise (fun a b => b.1 * a.2 ≤ a.1 * b.2))
    (hs1 : l1.Pairwise (fun a b => b.1 * a.2 ≤ a.1 * b.2)) : orderCost l = orderCost l1 :=
  le_antisymm (orderCost_sorted_le l hs l1 hperm.symm) (orderCost_sorted_le l1 hs1 l hperm)

/-- C16 (counterexample): the pairs `(65536, 65536)` and `(1, 65537)` are a tie for the
comparator, because `65536 * 65537` leaves the `int` range and wraps to `65536`; both orders
are sorted with respect to the comparator, and they give the totals `4295098369` and
`8590065665`. The same shows on `minDamage` with `power = 1`, where the sort keeps the
input order of a tie. -/
theorem tie_orders_differ :
    cmp (65536, 65536) (1, 65537) = false ∧ cmp (1, 65537) (65536, 65536) = false
      ∧ totalOf [(65536, 65536), (1, 65537)] [65536, 1] [65536, 65537] = 4295098369
      ∧ totalOf [(1, 65537), (65536, 65536)] [65536, 1] [65536, 65537] = 8590065665
      ∧ (minDamage 1 [65536, 1] [65536, 65537]).ans = 4295098369
      ∧ (minDamage 1 [1, 65536] [65537, 65536]).ans = 8590065665 := by
  refine ⟨?_, ?_, ?_, ?_, ?_, ?_⟩ <;> decide

/-- C16 (amended): in the last two loops of `minDamage`, exchanging two adjacent enemies
with equal ranking key `damage[a] * hits[b] = damage[b] * hits[a]` leaves the total
unchanged; and two orders of the same enemies that are both sorted with respect to the
comparator of the code give the same total, provided every product `damage[a] * hits[b]`
of two different pairs `a ≠ b`, the products on which the comparator decides, lies in the
`int` range (the product of a pair with itself may leave it); two orders that are sorted by
the exact ranking keys give the same total without that proviso. The returned value is the
total of the order the sort produces. -/
theorem total_tie_invariant :
    (∀ (l1 l2 : List (Int × Int)) (a b : Int × Int) (damage health : List Int),
        damage.length = (l1 ++ a :: b :: l2).length →
        health.length = (l1 ++ a :: b :: l2).length →
        a.1 * b.2 = b.1 * a.2 →
        totalOf (l1 ++ a :: b :: l2) damage health
          = totalOf (l1 ++ b :: a :: l2) damage health)
      ∧ (∀ (l l1 : List (Int × Int)) (damage health : List Int),
          damage.length = l.length → health.length = l.length → l.Perm l1 →
          (∀ a ∈ l, ∀ b ∈ l, a ≠ b → -2 ^ 31 ≤ a.1 * b.2 ∧ a.1 * b.2 < 2 ^ 31) →
          l.Pairwise (fun a b => cmp b a = false) →
          l1.Pairwise (fun a b => cmp b a = false) →
          totalOf l damage health = totalOf l1 damage health)
      ∧ (∀ (l l1 : List (Int × Int)) (damage health : List Int),
          damage.length = l.length → health.length = l.length → l.Perm l1 →
          l.Pairwise (fun a b => b.1 * a.2 ≤ a.1 * b.2) →
          l1.Pairwise (fun a b => b.1 * a.2 ≤ a.1 * b.2) →
          totalOf l damage health = totalOf l1 damage health)
      ∧ ∀ (power : Int) (damage health : List Int),
          (minDamage power damage health).ans
            = totalOf (stdSort cmp (pairLoop damage.length damage
                (hitsLoop power damage.length health))) damage
                (hitsLoop power damage.length health) := by
  refine ⟨?_, ?_, ?_, fun _ _ _ => rfl⟩
  · intro l1 l2 a b damage health hd hh hkey
    rw [totalOf_eq _ _ _ hd hh, totalOf_eq _ _ _ (by rw [hd]; simp) (by rw [hh]; simp),
      orderCost_swap l1 l2 a b hkey]
  · intro l l1 damage health hd hh hperm hrange hs hs1
    have hexact : ∀ l2 : List (Int × Int), l2.Perm l →
        l2.Pairwise (fun a b => cmp b a = false) →
        l2.Pairwise (fun a b => b.1 * a.2 ≤ a.1 * b.2) := by
      intro l2 hp h2
      refine h2.imp_of_mem ?_
      intro a b ha hb hab
      have ha1 := hp.mem_iff.1 ha
      have hb1 := hp.mem_iff.1 hb
      by_cases hne : a = b
      · rw [hne]
      · have hba : b ≠ a := fun h => hne h.symm
        rw [cmp_eq_of_int_range (hrange b hb1 a ha1 hba).1 (hrange b hb1 a ha1 hba).2
          (hrange a ha1 b hb1 hne).1 (hrange a ha1 b hb1 hne).2] at hab
        simpa using hab
    rw [totalOf_eq _ _ _ hd hh,
      totalOf_eq _ _ _ (by rw [hd, hperm.length_eq]) (by rw [hh, hperm.length_eq]),
      orderCost_eq_of_sorted hperm (hexact l (List.Perm.refl _) hs) (hexact l1 hperm.symm hs1)]
  · intro l l1 damage health hd hh hperm hs hs1
    rw [totalOf_eq _ _ _ hd hh,
      totalOf_eq _ _ _ (by rw [hd, hperm.length_eq]) (by rw [hh, hperm.length_eq]),
      orderCost_eq_of_sorted hperm hs hs1]

/-- C16 (witness): the pairs `(46341, 46341)` and `(1, 1)` are a tie for the comparator and
for the exact keys; the product `46341 * 46341` of the first pair with itself leaves the
`int` range, the products of the two different pairs do not, and both orders give the same
total `2147534623`. -/
theorem total_tie_invariant_witness :
    totalOf [(46341, 46341), (1, 1)] [46341, 1] [46341, 1]
        = totalOf [(1, 1), (46341, 46341)] [46341, 1] [46341, 1]
      ∧ totalOf [(46341, 46341), (1, 1)] [46341, 1] [46341, 1] = 2147534623
      ∧ ¬ ((46341 : Int) * 46341 < 2 ^ 31) :=
  ⟨total_tie_invariant.2.1 [(46341, 46341), (1, 1)] [(1, 1), (46341, 46341)] [46341, 1]
      [46341, 1] rfl rfl (List.Perm.swap _ _ _) (by decide) (by decide) (by decide),
    by decide, by decide⟩

end Bob
theorem forLoop_push {α β : Type} (l : List α) (f : α → β) (d : α) :
    forLoop l.length (fun i acc => acc ++ [f (l.getD i d)]) [] = l.map f := by
  have h : ∀ m, m ≤ l.length →
      forLoop m (fun i acc => acc ++ [f (l.getD i d)]) [] = (l.take m).map f := by
    intro m
    induction m with
    | zero => intro _; simp [forLoop_zero]
    | succ m ih =>
      intro hm
      have hm1 : m < l.length := hm
      have hg : l.getD m d = l[m] := by
        simp [List.getD_eq_getElem?_getD, List.getElem?_eq_getElem hm1]
      rw [forLoop_succ, ih (le_of_lt hm1), take_succ_eq _ _ hm1, hg]
      simp only [List.map_append, List.map_cons, List.map_nil]
  rw [h l.length (le_refl _), List.take_length]

theorem take_succ_sum (nums : List Int) (m : Nat) (hm : m < nums.length) :
    (nums.take (m + 1)).sum = (nums.take m).sum + nums.getD m 0 := by
  rw [take_succ_eq _ _ hm, List.sum_append]
  simp [List.getD_eq_getElem?_getD, List.getElem?_eq_getElem hm]

namespace RangeSum

theorem construct_loop (nums : List Int)
    (hpre : ∀ i, i < nums.length →
      -2 ^ 31 ≤ (nums.take (i + 1)).sum ∧ (nums.take (i + 1)).sum < 2 ^ 31) :
    ∀ m, m ≤ nums.length →
      forLoop m (fun i (st : Int × List Int) =>
          (wrap32 (st.1 + nums.getD i 0), st.2 ++ [wrap32 (st.1 + nums.getD i 0)])) (0, [])
        = ((nums.take m).sum, (List.range m).map (fun i => (nums.take (i + 1)).sum)) := by
  intro m
  induction m with
  | zero => intro _; simp [forLoop_zero]
  | succ m ih =>
    intro hm
    have hm1 : m < nums.length := hm
    rw [forLoop_succ, ih (le_of_lt hm1)]
    simp only
    rw [← take_succ_sum nums m hm1, wrap32_of_range (hpre m hm1).1 (hpre m hm1).2,
      List.range_succ, List.map_append]
    rfl

theorem construct_table (nums : List Int)
    (hpre : ∀ i, i < nums.length →
      -2 ^ 31 ≤ (nums.take (i + 1)).sum ∧ (nums.take (i + 1)).sum < 2 ^ 31) :
    (NumArray.construct nums).table = (List.range nums.length).map
      (fun i => (nums.take (i + 1)).sum) := by
  unfold NumArray.construct
  simp only
  rw [construct_loop nums hpre nums.length (le_refl _)]

theorem table_getD (nums : List Int)
    (hpre : ∀ i, i < nums.length →
      -2 ^ 31 ≤ (nums.take (i + 1)).sum ∧ (nums.take (i + 1)).sum < 2 ^ 31)
    (i : Nat) (hi : i < nums.length) :
    (NumArray.construct nums).table.getD i 0 = (nums.take (i + 1)).sum := by
  rw [construct_table nums hpre, List.getD_eq_getElem?_getD, List.getElem?_map,
    List.getElem?_range hi]
  rfl

/-- C14: when no sum overflows an `int` (the sums `nums[0] + ... + nums[i]` and the sum asked
for), `NumArray(nums).sumRange(left, right)` with `left ≤ right < len(nums)` returns
`nums[left] + ... + nums[right]`; the constructor leaves `nums[0] + ... + nums[i]` in entry
`i` of its table, and `sumRange` leaves the object as it was. -/
theorem sumRange_spec (nums : List Int) (left right : Nat) (hlr : left ≤ right)
    (hr : right < nums.length)
    (hpre : ∀ i, i < nums.length →
      -2 ^ 31 ≤ (nums.take (i + 1)).sum ∧ (nums.take (i + 1)).sum < 2 ^ 31)
    (hrange : -2 ^ 31 ≤ ((nums.drop left).take (right + 1 - left)).sum
      ∧ ((nums.drop left).take (right + 1 - left)).sum < 2 ^ 31) :
    ((NumArray.construct nums).sumRange (left : Int) (right : Int)).1
        = ((nums.drop left).take (right + 1 - left)).sum
      ∧ (∀ i, i < nums.length →
          (NumArray.construct nums).table[i]? = some ((nums.take (i + 1)).sum))
      ∧ (NumArray.construct nums).table.length = nums.length
      ∧ ((NumArray.construct nums).sumRange (left : Int) (right : Int)).2
          = NumArray.construct nums := by
  refine ⟨?_, ?_, ?_, ?_⟩
  · unfold NumArray.sumRange
    by_cases hl : (left : Int) > 0
    · have hl1 : 1 ≤ left := by omega
      have e1 : ((left : Int) - 1).toNat = left - 1 := by omega
      rw [if_pos hl]
      simp only [Int.toNat_ofNat, e1]
      rw [table_getD nums hpre right hr, table_getD nums hpre (left - 1) (by omega)]
      have e2 : left - 1 + 1 = left := by omega
      have e3 : right + 1 = left + (right + 1 - left) := by omega
      have hsplit : (nums.take (right + 1)).sum
          = (nums.take left).sum + ((nums.drop left).take (right + 1 - left)).sum := by
        conv_lhs => rw [e3, List.take_add, List.sum_append]
      rw [e2, hsplit]
      have e4 : (nums.take left).sum + ((nums.drop left).take (right + 1 - left)).sum
          - (nums.take left).sum = ((nums.drop left).take (right + 1 - left)).sum := by ring
      rw [e4, wrap32_of_range hrange.1 hrange.2]
    · have hl0 : left = 0 := by omega
      subst hl0
      rw [if_neg hl]
      simp only [Int.toNat_ofNat]
      rw [table_getD nums hpre right hr]
      simp
  · intro i hi
    rw [construct_table nums hpre, List.getElem?_map, List.getElem?_range hi]
    rfl
  · rw [construct_table nums hpre]
    simp
  · unfold NumArray.sumRange
    split <;> rfl

/-- C14 (witness): `nums = [-2, 0, 3, -5, 2, -1]` and the range `[2, 5]`, with sum `-1`. -/
theorem sumRange_spec_witness :
    ((NumArray.construct [-2, 0, 3, -5, 2, -1]).sumRange 2 5).1 = -1
      ∧ ((NumArray.construct [-2, 0, 3, -5, 2, -1]).sumRange ((2 : Nat) : Int)
            ((5 : Nat) : Int)).1
          = ((([-2, 0, 3, -5, 2, -1] : List Int).drop 2).take (5 + 1 - 2)).sum :=
  ⟨by decide, (sumRange_spec [-2, 0, 3, -5, 2, -1] 2 5 (by decide) (by decide) (by decide)
    (by decide)).1⟩

end RangeSum
theorem int_xor_comm (a b : Int) : Int.xor a b = Int.xor b a := by
  cases a <;> cases b <;> simp [Int.xor, Nat.xor_comm]

theorem int_xor_assoc (a b c : Int) : Int.xor (Int.xor a b) c = Int.xor a (Int.xor b c) := by
  cases a <;> cases b <;> cases c <;> simp [Int.xor, Nat.xor_assoc]

theorem int_xor_self (a : Int) : Int.xor a a = 0 := by
  cases a <;> simp [Int.xor]

theorem int_xor_zero (a : Int) : Int.xor a 0 = a := by
  cases a <;> simp [Int.xor]

theorem int_xor_cancel (p x : Int) : Int.xor (Int.xor p x) p = x := by
  rw [int_xor_comm p x, int_xor_assoc, int_xor_self, int_xor_zero]

theorem foldr_xor_append (l m : List Int) :
    (l ++ m).foldr Int.xor 0 = Int.xor (l.foldr Int.xor 0) (m.foldr Int.xor 0) := by
  induction l with
  | nil =>
    rw [List.nil_append, List.foldr_nil, int_xor_comm, int_xor_zero]
  | cons x xs ih =>
    rw [List.cons_append, List.foldr_cons, ih, List.foldr_cons, int_xor_assoc]
namespace XorQueries

theorem xor_take_succ (arr : List Int) (m : Nat) (hm : m < arr.length) :
    (arr.take (m + 1)).foldr Int.xor 0
      = Int.xor ((arr.take m).foldr Int.xor 0) (arr.getD m 0) := by
  have hg : arr.getD m 0 = arr[m] := by
    simp [List.getD_eq_getElem?_getD, List.getElem?_eq_getElem hm]
  rw [take_succ_eq _ _ hm, foldr_xor_append, hg, List.foldr_cons, List.foldr_nil, int_xor_zero]

theorem table_loop (arr : List Int) (hn : 0 < arr.length) :
    ∀ m, m ≤ arr.length - 1 →
      (forLoop m (fun k t => t.set (k + 1) (Int.xor (t.getD k 0) (arr.getD (k + 1) 0)))
          ((List.replicate arr.length (0 : Int)).set 0 (arr.getD 0 0))).length = arr.length
        ∧ ∀ i, i ≤ m →
          (forLoop m (fun k t => t.set (k + 1) (Int.xor (t.getD k 0) (arr.getD (k + 1) 0)))
            ((List.replicate arr.length (0 : Int)).set 0 (arr.getD 0 0)))[i]?
            = some ((arr.take (i + 1)).foldr Int.xor 0) := by
  intro m
  induction m with
  | zero =>
    intro _
    refine ⟨by simp [forLoop_zero], fun i hi => ?_⟩
    have hi0 : i = 0 := by omega
    subst hi0
    rw [forLoop_zero, List.getElem?_set_self (by simpa using hn), xor_take_succ arr 0 hn]
    simp only [List.take_zero, List.foldr_nil]
    rw [int_xor_comm, int_xor_zero]
  | succ m ih =>
    intro hm
    obtain ⟨hlen, hget⟩ := ih (by omega)
    rw [forLoop_succ]
    refine ⟨by rw [List.length_set]; exact hlen, fun i hi => ?_⟩
    by_cases him : i = m + 1
    · subst him
      rw [List.getElem?_set_self (by rw [hlen]; omega), xor_take_succ arr (m + 1) (by omega)]
      have hgm := hget m (le_refl _)
      rw [List.getD_eq_getElem?_getD, hgm]
      rfl
    · rw [List.getElem?_set_ne (fun h => him h.symm)]
      exact hget i (by omega)

theorem xor_split (arr : List Int) (left right : Nat) (hlr : left ≤ right) :
    (arr.take (right + 1)).foldr Int.xor 0
      = Int.xor ((arr.take left).foldr Int.xor 0) (xorRange arr left right) := by
  have e : right + 1 = left + (right + 1 - left) := by omega
  unfold xorRange
  conv_lhs => rw [e, List.take_add, foldr_xor_append]

/-- C13: for a non-empty `arr` and queries `[l, r]` with `0 ≤ l ≤ r < len(arr)`, the call
returns one entry per query, in the order of the queries, and the entry of the query `[l, r]`
is `arr[l] xor ... xor arr[r]`. -/
theorem xorQueries_spec (arr : List Int) (queries : List (List Int)) (hne : arr ≠ [])
    (hq : ∀ q ∈ queries, ∃ l r : Nat, q = [(l : Int), (r : Int)] ∧ l ≤ r ∧ r < arr.length) :
    xorQueries arr queries
      = queries.map (fun q => xorRange arr (q.getD 0 0).toNat (q.getD 1 0).toNat) := by
  have hn : 0 < arr.length := List.length_pos.2 hne
  obtain ⟨hlen, hget⟩ := table_loop arr hn (arr.length - 1) (le_refl _)
  have hD : ∀ i, i < arr.length →
      (forLoop (arr.length - 1)
        (fun k t => t.set (k + 1) (Int.xor (t.getD k 0) (arr.getD (k + 1) 0)))
        ((List.replicate arr.length (0 : Int)).set 0 (arr.getD 0 0))).getD i 0
        = (arr.take (i + 1)).foldr Int.xor 0 := by
    intro i hi
    rw [List.getD_eq_getElem?_getD, hget i (by omega)]
    rfl
  unfold xorQueries
  simp only
  rw [forLoop_push queries (fun q =>
    if q.getD 0 0 > 0 then
      Int.xor ((forLoop (arr.length - 1)
          (fun k t => t.set (k + 1) (Int.xor (t.getD k 0) (arr.getD (k + 1) 0)))
          ((List.replicate arr.length (0 : Int)).set 0 (arr.getD 0 0))).getD (q.getD 1 0).toNat 0)
        ((forLoop (arr.length - 1)
          (fun k t => t.set (k + 1) (Int.xor (t.getD k 0) (arr.getD (k + 1) 0)))
          ((List.replicate arr.length (0 : Int)).set 0 (arr.getD 0 0))).getD
            (q.getD 0 0 - 1).toNat 0)
    else (forLoop (arr.length - 1)
          (fun k t => t.set (k + 1) (Int.xor (t.getD k 0) (arr.getD (k + 1) 0)))
          ((List.replicate arr.length (0 : Int)).set 0 (arr.getD 0 0))).getD (q.getD 1 0).toNat 0)
    []]
  apply List.map_congr_left
  intro q hqm
  obtain ⟨l, r, rfl, hlr, hr⟩ := hq q hqm
  have g0 : ([(l : Int), (r : Int)] : List Int).getD 0 0 = (l : Int) := rfl
  have g1 : ([(l : Int), (r : Int)] : List Int).getD 1 0 = (r : Int) := rfl
  simp only [g0, g1, Int.toNat_ofNat]
  by_cases hl : (l : Int) > 0
  · have e1 : ((l : Int) - 1).toNat = l - 1 := by omega
    have e2 : l - 1 + 1 = l := by omega
    rw [if_pos hl, e1, hD r hr, hD (l - 1) (by omega), e2, xor_split arr l r hlr, int_xor_cancel]
  · have hl0 : l = 0 := by omega
    subst hl0
    rw [if_neg hl, hD r hr]
    simp [xorRange]

/-- C13 (witness): `arr = [1,3,4,8]` with the queries `[0,1], [1,2], [0,3], [3,3]`, answered
by `[2,7,14,8]`. -/
theorem xorQueries_spec_witness :
    xorQueries [1, 3, 4, 8] [[0, 1], [1, 2], [0, 3], [3, 3]] = [2, 7, 14, 8]
      ∧ xorQueries [1, 3, 4, 8] [[0, 1], [1, 2], [0, 3], [3, 3]]
          = ([[0, 1], [1, 2], [0, 3], [3, 3]] : List (List Int)).map
              (fun q => xorRange [1, 3, 4, 8] (q.getD 0 0).toNat (q.getD 1 0).toNat) :=
  ⟨by decide, xorQueries_spec [1, 3, 4, 8] [[0, 1], [1, 2], [0, 3], [3, 3]] (by decide) (by
    intro q hq
    simp only [List.mem_cons, List.mem_singleton, List.not_mem_nil, or_false] at hq
    rcases hq with rfl | rfl | rfl | rfl
    · exact ⟨0, 1, rfl, by decide, by decide⟩
    · exact ⟨1, 2, rfl, by decide, by decide⟩
    · exact ⟨0, 3, rfl, by decide, by decide⟩
    · exact ⟨3, 3, rfl, by decide, by decide⟩)⟩

end XorQueries
theorem count_loop (p : Nat → Prop) [DecidablePred p] (n : Nat) (hn : n ≤ 31) :
    forLoop n (fun i (count : Int) => if p i then wrap32 (count + 1) else count) 0
      = (((Finset.range n).filter p).card : Int) := by
  induction n with
  | zero => simp [forLoop_zero]
  | succ n ih =>
    have hc : ((Finset.range n).filter p).card ≤ n := by
      have := Finset.card_filter_le (Finset.range n) p
      rw [Finset.card_range] at this
      exact this
    rw [forLoop_succ, ih (by omega), Finset.range_succ]
    by_cases hp : p n
    · rw [if_pos hp, Finset.filter_insert, if_pos hp,
        Finset.card_insert_of_not_mem (by simp), wrap32_of_range (by omega) (by omega)]
      push_cast
      ring
    · rw [if_neg hp, Finset.filter_insert, if_neg hp]

namespace BitFlips

theorem land_two_pow (d i : Nat) (hi : i < 31) :
    Int.land (d : Int) (wrap32 (2 ^ i)) ≠ 0 ↔ d.testBit i = true := by
  have hpow : (2 : Int) ^ i < 2 ^ 31 := by
    have := Nat.pow_lt_pow_right (a := 2) (by decide) hi
    exact_mod_cast this
  have hpos : (0 : Int) ≤ 2 ^ i := by positivity
  rw [wrap32_of_range (by omega) hpow]
  have e : ((2 : Int) ^ i) = ((2 ^ i : Nat) : Int) := by push_cast; rfl
  rw [e]
  have e2 : Int.land (d : Int) ((2 ^ i : Nat) : Int) = ((d &&& 2 ^ i : Nat) : Int) := rfl
  rw [e2, Nat.and_two_pow]
  cases h : d.testBit i <;> simp

theorem testBit_lt (d i : Nat) (hd : d < 2 ^ 31) (h : d.testBit i = true) : i < 31 := by
  by_contra hc
  have h1 : (2 : Nat) ^ 31 ≤ 2 ^ i := Nat.pow_le_pow_right (by decide) (by omega)
  have := Nat.testBit_lt_two_pow (lt_of_lt_of_le hd h1)
  rw [this] at h
  exact absurd h (by decide)

/-- C15: for `0 ≤ start, goal < 2^31` the call returns the number of bit positions at which
`start` and `goal` differ, which is the number of bits set in `start xor goal`; every such
position is below 31, so the loop over the positions `0..30` misses none. -/
theorem minBitFlips_spec (start goal : Int) (hs0 : 0 ≤ start) (hs1 : start < 2 ^ 31)
    (hg0 : 0 ≤ goal) (hg1 : goal < 2 ^ 31) :
    minBitFlips start goal
        = (((Finset.range 31).filter (fun i => start.testBit i ≠ goal.testBit i)).card : Int)
      ∧ (∀ i, start.testBit i ≠ goal.testBit i → i < 31)
      ∧ minBitFlips start goal
        = (((Finset.range 31).filter
            (fun i => (Int.xor start goal).testBit i = true)).card : Int)
      ∧ ∀ i, (Int.xor start goal).testBit i = true → i < 31 := by
  lift start to Nat using hs0
  lift goal to Nat using hg0
  have ha : start < 2 ^ 31 := by exact_mod_cast hs1
  have hb : goal < 2 ^ 31 := by exact_mod_cast hg1
  have hx : Int.xor (start : Int) (goal : Int) = ((start ^^^ goal : Nat) : Int) := rfl
  have hxlt : start ^^^ goal < 2 ^ 31 := Nat.xor_lt_two_pow ha hb
  have ht : ∀ (d i : Nat), Int.testBit (d : Int) i = d.testBit i := fun _ _ => rfl
  have hcount : minBitFlips (start : Int) (goal : Int)
      = (((Finset.range 31).filter
          (fun i => (start ^^^ goal).testBit i = true)).card : Int) := by
    unfold minBitFlips
    simp only [hx]
    rw [count_loop (fun i => Int.land ((start ^^^ goal : Nat) : Int) (wrap32 (2 ^ i)) ≠ 0) 31
      (le_refl _)]
    congr 2
    apply Finset.filter_congr
    intro i hi
    exact land_two_pow _ i (Finset.mem_range.1 hi)
  refine ⟨?_, ?_, ?_, ?_⟩
  · rw [hcount]
    congr 2
    apply Finset.filter_congr
    intro i _
    rw [ht, ht, Nat.testBit_xor]
    cases start.testBit i <;> cases goal.testBit i <;> simp
  · intro i hi
    rw [ht, ht] at hi
    apply testBit_lt (start ^^^ goal) i hxlt
    rw [Nat.testBit_xor]
    cases h1 : start.testBit i <;> cases h2 : goal.testBit i <;> simp_all
  · rw [hcount]
    simp only [hx, ht]
  · intro i hi
    rw [hx, ht] at hi
    exact testBit_lt _ i hxlt hi

/-- C15 (witness): `start = 10` and `goal = 7` differ in three bits. -/
theorem minBitFlips_spec_witness :
    minBitFlips 10 7 = 3
      ∧ minBitFlips 10 7
        = (((Finset.range 31).filter
            (fun i => (10 : Int).testBit i ≠ (7 : Int).testBit i)).card : Int) :=
  ⟨by decide, (minBitFlips_spec 10 7 (by decide) (by decide) (by decide) (by decide)).1⟩

end BitFlips
theorem pair_sublist_of_index {α : Type} (l : List α) (i j : Nat) (hij : i < j)
    (hj : j < l.length) : [l[i], l[j]].Sublist l := by
  have hi : i < l.length := by omega
  have hmem : l[j] ∈ l.drop (i + 1) := by
    apply List.getElem?_mem (n := j - (i + 1))
    rw [List.getElem?_drop, ← List.getElem?_eq_getElem hj]
    exact congrArg (fun x => l[x]?) (by omega)
  have h1 : [l[i], l[j]].Sublist (l.drop i) := by
    rw [List.drop_eq_getElem_cons hi]
    exact List.Sublist.cons₂ _ (List.singleton_sublist.2 hmem)
  have h2 : (l.drop i).Sublist l := List.drop_sublist i l
  exact h1.trans h2

theorem index_of_pair_sublist {α : Type} (l : List α) (a b : α) (h : [a, b].Sublist l) :
    ∃ i j : Nat, i < j ∧ l[i]? = some a ∧ l[j]? = some b := by
  induction l with
  | nil => cases h
  | cons x xs ih =>
    rcases List.sublist_cons_iff.1 h with h1 | ⟨r, hr, h1⟩
    · obtain ⟨i, j, hij, hi, hj⟩ := ih h1
      exact ⟨i + 1, j + 1, by omega, by simpa using hi, by simpa using hj⟩
    · have hx : a = x := (List.cons.inj hr).1
      have hr1 : [b] = r := (List.cons.inj hr).2
      subst hx
      rw [← hr1] at h1
      obtain ⟨n, hn⟩ := List.mem_iff_getElem?.1 (List.singleton_sublist.1 h1)
      exact ⟨0, n + 1, by omega, by simp, by simpa using hn⟩

theorem pair_subperm_cases {α : Type} (l : List α) (a b : α) (h : [a, b].Subperm l) :
    [a, b].Sublist l ∨ [b, a].Sublist l := by
  obtain ⟨l2, hp, hs⟩ := h
  have hlen : l2.length = 2 := hp.length_eq
  obtain ⟨x, y, rfl⟩ := List.length_eq_two.1 hlen
  have hx : x ∈ [a, b] := hp.mem_iff.1 (List.mem_cons_self _ _)
  rcases List.mem_cons.1 hx with rfl | hx
  · have hy : [y].Perm [b] := (List.perm_cons _).1 hp
    rw [List.perm_singleton.1 hy] at hs
    exact Or.inl hs
  · have hxb : x = b := List.mem_singleton.1 hx
    subst hxb
    have hp2 : [x, y].Perm [x, a] := hp.trans (List.Perm.swap x a [])
    have hy : [y].Perm [a] := (List.perm_cons _).1 hp2
    rw [List.perm_singleton.1 hy] at hs
    exact Or.inr hs

/-- Two entries at distinct indices of a list are found, in one order or the other, at two
increasing indices of every permutation of the list. -/
theorem pair_transfer {α : Type} {l l1 : List α} (hperm : l.Perm l1) {i j : Nat} {a b : α}
    (hij : i ≠ j) (hi : l[i]? = some a) (hj : l[j]? = some b) :
    ∃ i1 j1 : Nat, i1 < j1 ∧ ((l1[i1]? = some a ∧ l1[j1]? = some b)
      ∨ (l1[i1]? = some b ∧ l1[j1]? = some a)) := by
  obtain ⟨hil, hia⟩ := List.getElem?_eq_some_iff.1 hi
  obtain ⟨hjl, hjb⟩ := List.getElem?_eq_some_iff.1 hj
  have hsub : [a, b].Subperm l := by
    rcases Nat.lt_or_gt_of_ne hij with h | h
    · have := pair_sublist_of_index l i j h hjl
      rw [hia, hjb] at this
      exact this.subperm
    · have := pair_sublist_of_index l j i h hil
      rw [hia, hjb] at this
      exact (List.Perm.swap b a []).subperm.trans this.subperm
  rcases pair_subperm_cases l1 a b (hsub.trans hperm.subperm) with h | h
  · obtain ⟨i1, j1, h1, h2, h3⟩ := index_of_pair_sublist l1 a b h
    exact ⟨i1, j1, h1, Or.inl ⟨h2, h3⟩⟩
  · obtain ⟨i1, j1, h1, h2, h3⟩ := index_of_pair_sublist l1 b a h
    exact ⟨i1, j1, h1, Or.inr ⟨h2, h3⟩⟩
namespace TimeDiff

theorem digit_toNat (d : Nat) (h : d ≤ 9) : ((Char.ofNat (48 + d)).toNat : Int) = 48 + d := by
  interval_cases d <;> rfl

theorem convert_wellFormed {time : List Char} (h : WellFormed time) :
    ∃ h1 h2 m1 m2 : Nat, time = [Char.ofNat (48 + h1), Char.ofNat (48 + h2), ':',
        Char.ofNat (48 + m1), Char.ofNat (48 + m2)]
      ∧ 10 * h1 + h2 ≤ 23 ∧ 10 * m1 + m2 ≤ 59
      ∧ convert time = 60 * ((10 * h1 + h2 : Nat) : Int) + ((10 * m1 + m2 : Nat) : Int) := by
  obtain ⟨h1, h2, m1, m2, rfl, a1, a2, a3, a4, a5, a6⟩ := h
  refine ⟨h1, h2, m1, m2, rfl, a5, a6, ?_⟩
  have e0 : charAt [Char.ofNat (48 + h1), Char.ofNat (48 + h2), ':', Char.ofNat (48 + m1),
      Char.ofNat (48 + m2)] 0 = Char.ofNat (48 + h1) := rfl
  have e1 : charAt [Char.ofNat (48 + h1), Char.ofNat (48 + h2), ':', Char.ofNat (48 + m1),
      Char.ofNat (48 + m2)] 1 = Char.ofNat (48 + h2) := rfl
  have e3 : charAt [Char.ofNat (48 + h1), Char.ofNat (48 + h2), ':', Char.ofNat (48 + m1),
      Char.ofNat (48 + m2)] 3 = Char.ofNat (48 + m1) := rfl
  have e4 : charAt [Char.ofNat (48 + h1), Char.ofNat (48 + h2), ':', Char.ofNat (48 + m1),
      Char.ofNat (48 + m2)] 4 = Char.ofNat (48 + m2) := rfl
  unfold convert
  rw [e0, e1, e3, e4, digit_toNat h1 a1, digit_toNat h2 a2, digit_toNat m1 a3, digit_toNat m2 a4]
  push_cast
  ring

theorem convert_range {time : List Char} (h : WellFormed time) :
    0 ≤ convert time ∧ convert time < 1440 := by
  obtain ⟨h1, h2, m1, m2, -, a5, a6, hc⟩ := convert_wellFormed h
  rw [hc]
  constructor <;> omega

theorem circular_comm (a b : Int) : circular a b = circular b a := by
  unfold circular
  rw [abs_sub_comm]

theorem gap_loop (L : List Int) (init : Int) :
    ∀ m, forLoop m (fun k r => min r (wrap32 (L.getD k 0 - L.getD (k + 1) 0))) init ≤ init
      ∧ (∀ k, k < m →
          forLoop m (fun k r => min r (wrap32 (L.getD k 0 - L.getD (k + 1) 0))) init
            ≤ wrap32 (L.getD k 0 - L.getD (k + 1) 0))
      ∧ (forLoop m (fun k r => min r (wrap32 (L.getD k 0 - L.getD (k + 1) 0))) init = init
          ∨ ∃ k, k < m ∧
            forLoop m (fun k r => min r (wrap32 (L.getD k 0 - L.getD (k + 1) 0))) init
              = wrap32 (L.getD k 0 - L.getD (k + 1) 0)) := by
  intro m
  induction m with
  | zero =>
    exact ⟨le_refl _, fun k hk => absurd hk (Nat.not_lt_zero _), Or.inl rfl⟩
  | succ m ih =>
    obtain ⟨h1, h2, h3⟩ := ih
    rw [forLoop_succ]
    refine ⟨le_trans (min_le_left _ _) h1, ?_, ?_⟩
    · intro k hk
      by_cases hkm : k = m
      · subst hkm
        exact min_le_right _ _
      · exact le_trans (min_le_left _ _) (h2 k (by omega))
    · rcases min_choice
          (forLoop m (fun k r => min r (wrap32 (L.getD k 0 - L.getD (k + 1) 0))) init)
          (wrap32 (L.getD m 0 - L.getD (m + 1) 0)) with h | h
      · rw [h]
        rcases h3 with h3 | ⟨k, hk, h3⟩
        · exact Or.inl h3
        · exact Or.inr ⟨k, by omega, h3⟩
      · exact Or.inr ⟨m, by omega, h⟩

theorem sorted_get {L : List Int} (hs : L.Pairwise (fun a b => b ≤ a)) {i j : Nat}
    (hij : i ≤ j) {a b : Int} (hi : L[i]? = some a) (hj : L[j]? = some b) : b ≤ a := by
  obtain ⟨hil, hia⟩ := List.getElem?_eq_some_iff.1 hi
  obtain ⟨hjl, hjb⟩ := List.getElem?_eq_some_iff.1 hj
  rcases Nat.eq_or_lt_of_le hij with h | h
  · subst h
    rw [hi] at hj
    rw [Option.some.inj hj]
  · rw [← hia, ← hjb]
    exact List.pairwise_iff_getElem.1 hs i j hil hjl h

/-- On a list of times in decreasing order the loop yields the smallest circular distance of
two entries. -/
theorem sorted_result (L : List Int) (hs : L.Pairwise (fun a b => b ≤ a))
    (hr : ∀ x ∈ L, 0 ≤ x ∧ x < 1440) (hlen : 2 ≤ L.length) :
    (∀ (i j : Nat) (a b : Int), i < j → L[i]? = some a → L[j]? = some b →
        forLoop (L.length - 1) (fun k r => min r (wrap32 (L.getD k 0 - L.getD (k + 1) 0)))
          (wrap32 (L.getLastD 0 + wrap32 (1440 - L.getD 0 0))) ≤ circular a b)
      ∧ ∃ (i j : Nat) (a b : Int), i < j ∧ L[i]? = some a ∧ L[j]? = some b
        ∧ forLoop (L.length - 1) (fun k r => min r (wrap32 (L.getD k 0 - L.getD (k + 1) 0)))
          (wrap32 (L.getLastD 0 + wrap32 (1440 - L.getD 0 0))) = circular a b := by
  have hget : ∀ k, k < L.length → L[k]? = some (L.getD k 0) := by
    intro k hk
    rw [List.getD_eq_getElem?_getD, List.getElem?_eq_getElem hk]
    rfl
  have hrange : ∀ k, k < L.length → 0 ≤ L.getD k 0 ∧ L.getD k 0 < 1440 :=
    fun k hk => hr _ (List.getElem?_mem (hget k hk))
  have hlast : L.getLastD 0 = L.getD (L.length - 1) 0 := by
    rw [List.getLastD_eq_getLast?, List.getLast?_eq_getElem?, List.getD_eq_getElem?_getD]
  have h0 := hrange 0 (by omega)
  have hl := hrange (L.length - 1) (by omega)
  have hinit : wrap32 (L.getLastD 0 + wrap32 (1440 - L.getD 0 0))
      = L.getD (L.length - 1) 0 + 1440 - L.getD 0 0 := by
    rw [hlast, wrap32_of_range (x := 1440 - L.getD 0 0) (by omega) (by omega),
      wrap32_of_range (by omega) (by omega)]
    ring
  have hgap : ∀ k, k + 1 < L.length →
      wrap32 (L.getD k 0 - L.getD (k + 1) 0) = L.getD k 0 - L.getD (k + 1) 0 := by
    intro k hk
    have a1 := hrange k (by omega)
    have a2 := hrange (k + 1) hk
    exact wrap32_of_range (by omega) (by omega)
  obtain ⟨g1, g2, g3⟩ := gap_loop L (wrap32 (L.getLastD 0 + wrap32 (1440 - L.getD 0 0)))
    (L.length - 1)
  have hlow : ∀ (i j : Nat) (a b : Int), i < j → L[i]? = some a → L[j]? = some b →
      forLoop (L.length - 1) (fun k r => min r (wrap32 (L.getD k 0 - L.getD (k + 1) 0)))
        (wrap32 (L.getLastD 0 + wrap32 (1440 - L.getD 0 0))) ≤ circular a b := by
    intro i j a b hij hi hj
    have hjl := (List.getElem?_eq_some_iff.1 hj).1
    have hba : b ≤ a := sorted_get hs (le_of_lt hij) hi hj
    have hnext : b ≤ L.getD (i + 1) 0 := sorted_get hs (by omega) (hget (i + 1) (by omega)) hj
    have hfirst : a ≤ L.getD 0 0 := sorted_get hs (Nat.zero_le _) (hget 0 (by omega)) hi
    have hend : L.getD (L.length - 1) 0 ≤ b :=
      sorted_get hs (by omega) hj (hget (L.length - 1) (by omega))
    have hai : L.getD i 0 = a := by
      rw [List.getD_eq_getElem?_getD, hi]
      rfl
    have hgi := le_trans (g2 i (by omega)) (le_of_eq (hgap i (by omega)))
    rw [hai] at hgi
    have g1a := le_trans g1 (le_of_eq hinit)
    unfold circular
    rw [abs_of_nonneg (by omega)]
    exact le_min (by omega) (by omega)
  refine ⟨hlow, ?_⟩
  rcases g3 with h | ⟨k, hk, h⟩
  · refine ⟨0, L.length - 1, L.getD 0 0, L.getD (L.length - 1) 0, by omega, hget 0 (by omega),
      hget _ (by omega), le_antisymm (hlow _ _ _ _ (by omega) (hget 0 (by omega))
        (hget _ (by omega))) ?_⟩
    rw [h, hinit]
    have hle : L.getD (L.length - 1) 0 ≤ L.getD 0 0 :=
      sorted_get hs (Nat.zero_le _) (hget 0 (by omega)) (hget _ (by omega))
    unfold circular
    rw [abs_of_nonneg (by omega)]
    exact le_trans (min_le_right _ _) (by omega)
  · refine ⟨k, k + 1, L.getD k 0, L.getD (k + 1) 0, by omega, hget k (by omega),
      hget _ (by omega), le_antisymm (hlow _ _ _ _ (by omega) (hget k (by omega))
        (hget _ (by omega))) ?_⟩
    rw [h, hgap k (by omega)]
    have hle : L.getD (k + 1) 0 ≤ L.getD k 0 :=
      sorted_get hs (by omega) (hget k (by omega)) (hget _ (by omega))
    unfold circular
    rw [abs_of_nonneg (by omega)]
    exact min_le_left _ _


theorem findMinDifference_eq (timePoints : List (List Char)) :
    findMinDifference timePoints
      = forLoop ((stdSort (fun a b => decide (a > b)) (timePoints.map convert)).length - 1)
          (fun k r => min r
            (wrap32 ((stdSort (fun a b => decide (a > b)) (timePoints.map convert)).getD k 0
              - (stdSort (fun a b => decide (a > b)) (timePoints.map convert)).getD (k + 1) 0)))
          (wrap32 ((stdSort (fun a b => decide (a > b)) (timePoints.map convert)).getLastD 0
            + wrap32 (1440
              - (stdSort (fun a b => decide (a > b)) (timePoints.map convert)).getD 0 0))) := by
  unfold findMinDifference
  simp only
  rw [forLoop_push timePoints convert []]

/-- C11: for at least two well-formed times `"HH:MM"`, `findMinDifference` returns the
minimum over all pairs of distinct indices of the circular distance
`min(|t_i - t_j|, 1440 - |t_i - t_j|)` of the values `t = 60 * HH + MM` that `convert`
returns: it is at most every such distance and equal to one of them; it is `0` when two
entries are equal. -/
theorem findMinDifference_spec (timePoints : List (List Char)) (hlen : 2 ≤ timePoints.length)
    (hwf : ∀ t ∈ timePoints, WellFormed t) :
    (∀ i j : Nat, i < timePoints.length → j < timePoints.length → i ≠ j →
        findMinDifference timePoints
          ≤ circular (convert (timePoints.getD i [])) (convert (timePoints.getD j [])))
      ∧ (∃ i j : Nat, i < timePoints.length ∧ j < timePoints.length ∧ i ≠ j
          ∧ findMinDifference timePoints
            = circular (convert (timePoints.getD i [])) (convert (timePoints.getD j [])))
      ∧ ((∃ i j : Nat, i < timePoints.length ∧ j < timePoints.length ∧ i ≠ j
            ∧ timePoints.getD i [] = timePoints.getD j []) → findMinDifference timePoints = 0)
      ∧ ∀ t ∈ timePoints, ∃ h1 h2 m1 m2 : Nat,
          t = [Char.ofNat (48 + h1), Char.ofNat (48 + h2), ':', Char.ofNat (48 + m1),
            Char.ofNat (48 + m2)]
          ∧ 10 * h1 + h2 ≤ 23 ∧ 10 * m1 + m2 ≤ 59
          ∧ convert t = 60 * ((10 * h1 + h2 : Nat) : Int) + ((10 * m1 + m2 : Nat) : Int) := by
  have hperm := stdSort_perm (fun a b : Int => decide (a > b)) (timePoints.map convert)
  have hsorted : (stdSort (fun a b : Int => decide (a > b)) (timePoints.map convert)).Pairwise
      (fun a b => b ≤ a) := by
    have hpw := stdSort_pairwise (fun a b : Int => decide (a > b)) (timePoints.map convert)
      (by
        intro x _ y _ hxy
        simp only [decide_eq_true_eq, decide_eq_false_iff_not] at hxy ⊢
        omega)
      (by
        intro x _ y _ z _ h1 h2
        simp only [decide_eq_false_iff_not] at h1 h2 ⊢
        omega)
    refine hpw.imp ?_
    intro a b hab
    simp only [decide_eq_false_iff_not] at hab
    omega
  have hmemT : ∀ x ∈ timePoints.map convert, 0 ≤ x ∧ x < 1440 := by
    intro x hx
    obtain ⟨t, ht, rfl⟩ := List.mem_map.1 hx
    exact convert_range (hwf t ht)
  have hrange : ∀ x ∈ stdSort (fun a b : Int => decide (a > b)) (timePoints.map convert),
      0 ≤ x ∧ x < 1440 := fun x hx => hmemT x (hperm.mem_iff.1 hx)
  have hL : 2 ≤ (stdSort (fun a b : Int => decide (a > b)) (timePoints.map convert)).length := by
    rw [hperm.length_eq, List.length_map]
    exact hlen
  obtain ⟨hlow, i0, j0, a0, b0, hij0, hi0, hj0, heq0⟩ := sorted_result _ hsorted hrange hL
  rw [← findMinDifference_eq] at hlow heq0
  have hT : ∀ i, i < timePoints.length →
      (timePoints.map convert)[i]? = some (convert (timePoints.getD i [])) := by
    intro i hi
    rw [List.getElem?_map, List.getD_eq_getElem?_getD, List.getElem?_eq_getElem hi]
    rfl
  have hlowT : ∀ i j : Nat, i < timePoints.length → j < timePoints.length → i ≠ j →
      findMinDifference timePoints
        ≤ circular (convert (timePoints.getD i [])) (convert (timePoints.getD j [])) := by
    intro i j hi hj hij
    obtain ⟨i1, j1, h1, h2 | h2⟩ := pair_transfer hperm.symm hij (hT i hi) (hT j hj)
    · exact hlow i1 j1 _ _ h1 h2.1 h2.2
    · rw [circular_comm]
      exact hlow i1 j1 _ _ h1 h2.1 h2.2
  have hexT : ∃ i j : Nat, i < timePoints.length ∧ j < timePoints.length ∧ i ≠ j
      ∧ findMinDifference timePoints
        = circular (convert (timePoints.getD i [])) (convert (timePoints.getD j [])) := by
    obtain ⟨i1, j1, h1, h2 | h2⟩ := pair_transfer hperm (Nat.ne_of_lt hij0) hi0 hj0
    · have hi1 : i1 < timePoints.length := by
        have := (List.getElem?_eq_some_iff.1 h2.1).1
        simpa using this
      have hj1 : j1 < timePoints.length := by
        have := (List.getElem?_eq_some_iff.1 h2.2).1
        simpa using this
      have ea := h2.1
      have eb := h2.2
      rw [hT i1 hi1] at ea
      rw [hT j1 hj1] at eb
      refine ⟨i1, j1, hi1, hj1, Nat.ne_of_lt h1, ?_⟩
      rw [Option.some.inj ea, Option.some.inj eb]
      exact heq0
    · have hi1 : i1 < timePoints.length := by
        have := (List.getElem?_eq_some_iff.1 h2.1).1
        simpa using this
      have hj1 : j1 < timePoints.length := by
        have := (List.getElem?_eq_some_iff.1 h2.2).1
        simpa using this
      have eb := h2.1
      have ea := h2.2
      rw [hT i1 hi1] at eb
      rw [hT j1 hj1] at ea
      refine ⟨i1, j1, hi1, hj1, Nat.ne_of_lt h1, ?_⟩
      rw [Option.some.inj ea, Option.some.inj eb, circular_comm]
      exact heq0
  refine ⟨hlowT, hexT, ?_, fun t ht => convert_wellFormed (hwf t ht)⟩
  rintro ⟨i, j, hi, hj, hij, he⟩
  have h1 := hlowT i j hi hj hij
  rw [he] at h1
  have hz : circular (convert (timePoints.getD j [])) (convert (timePoints.getD j [])) = 0 := by
    unfold circular
    simp
  rw [hz] at h1
  obtain ⟨i2, j2, hi2, hj2, -, h2⟩ := hexT
  have hnn : 0 ≤ circular (convert (timePoints.getD i2 [])) (convert (timePoints.getD j2 [])) := by
    have r1 := hmemT _ (List.getElem?_mem (hT i2 hi2))
    have r2 := hmemT _ (List.getElem?_mem (hT j2 hj2))
    unfold circular
    refine le_min (abs_nonneg _) ?_
    have : |convert (timePoints.getD i2 []) - convert (timePoints.getD j2 [])| ≤ 1440 := by
      rw [abs_le]
      constructor <;> omega
    omega
  rw [← h2] at hnn
  omega

/-- C11 (witness): the times `23:59`, `00:00` and `12:30`, with the answer `1`. -/
theorem findMinDifference_spec_witness :
    findMinDifference ["23:59".toList, "00:00".toList, "12:30".toList] = 1
      ∧ ∃ i j : Nat, i < ["23:59".toList, "00:00".toList, "12:30".toList].length
          ∧ j < ["23:59".toList, "00:00".toList, "12:30".toList].length ∧ i ≠ j
          ∧ findMinDifference ["23:59".toList, "00:00".toList, "12:30".toList]
            = circular
                (convert (["23:59".toList, "00:00".toList, "12:30".toList].getD i []))
                (convert (["23:59".toList, "00:00".toList, "12:30".toList].getD j [])) :=
  ⟨by decide, (findMinDifference_spec ["23:59".toList, "00:00".toList, "12:30".toList]
    (by decide) (by
      intro t ht
      simp only [List.mem_cons, List.mem_singleton, List.not_mem_nil, or_false] at ht
      rcases ht with rfl | rfl | rfl
      · exact ⟨2, 3, 5, 9, by decide, by decide, by decide, by decide, by decide, by decide,
          by decide⟩
      · exact ⟨0, 0, 0, 0, by decide, by decide, by decide, by decide, by decide, by decide,
          by decide⟩
      · exact ⟨1, 2, 3, 0, by decide, by decide, by decide, by decide, by decide, by decide,
          by decide⟩)).2.1⟩

end TimeDiff
theorem forLoop_foldl {α σ : Type} (l : List α) (f : σ → α → σ) (d : α) (init : σ) :
    forLoop l.length (fun i s => f s (l.getD i d)) init = l.foldl f init := by
  have h : ∀ m, m ≤ l.length →
      forLoop m (fun i s => f s (l.getD i d)) init = (l.take m).foldl f init := by
    intro m
    induction m with
    | zero => intro _; simp [forLoop_zero]
    | succ m ih =>
      intro hm
      have hm1 : m < l.length := hm
      have hg : l.getD m d = l[m] := by
        simp [List.getD_eq_getElem?_getD, List.getElem?_eq_getElem hm1]
      rw [forLoop_succ, ih (le_of_lt hm1), take_succ_eq _ _ hm1, hg, List.foldl_append]
      rfl
  rw [h l.length (le_refl _), List.take_length]

namespace MaxAnd

theorem land_nonneg_le {a b : Int} (ha : 0 ≤ a) (hb : 0 ≤ b) :
    0 ≤ Int.land a b ∧ Int.land a b ≤ a ∧ Int.land a b ≤ b := by
  lift a to Nat using ha
  lift b to Nat using hb
  have e : Int.land (a : Int) (b : Int) = ((a &&& b : Nat) : Int) := rfl
  rw [e]
  have h1 : a &&& b ≤ a := Nat.and_le_left
  have h2 : a &&& b ≤ b := Nat.and_le_right
  refine ⟨by positivity, by exact_mod_cast h1, by exact_mod_cast h2⟩

theorem land_self {a : Int} (ha : 0 ≤ a) : Int.land a a = a := by
  lift a to Nat using ha
  have e : Int.land (a : Int) (a : Int) = ((a &&& a : Nat) : Int) := rfl
  rw [e, Nat.and_self]

theorem andAll_le (sub : List Int) (hne : sub ≠ []) (hnn : ∀ x ∈ sub, 0 ≤ x) :
    0 ≤ andAll sub ∧ ∀ x ∈ sub, andAll sub ≤ x := by
  induction sub with
  | nil => exact absurd rfl hne
  | cons x rest ih =>
    cases rest with
    | nil =>
      refine ⟨hnn x (List.mem_cons_self _ _), fun y hy => ?_⟩
      rw [List.mem_singleton.1 hy]
      exact le_refl _
    | cons y r =>
      obtain ⟨h0, hall⟩ := ih (by simp) (fun z hz => hnn z (List.mem_cons_of_mem _ hz))
      obtain ⟨l0, l1, l2⟩ := land_nonneg_le (hnn x (List.mem_cons_self _ _)) h0
      refine ⟨l0, fun z hz => ?_⟩
      rcases List.mem_cons.1 hz with rfl | hz
      · exact l1
      · exact le_trans l2 (hall z hz)

theorem andAll_const (sub : List Int) (M : Int) (hM : 0 ≤ M) (hne : sub ≠ [])
    (hall : ∀ x ∈ sub, x = M) : andAll sub = M := by
  induction sub with
  | nil => exact absurd rfl hne
  | cons x rest ih =>
    have hx : x = M := hall x (List.mem_cons_self _ _)
    cases rest with
    | nil => exact hx
    | cons y r =>
      have := ih (by simp) (fun z hz => hall z (List.mem_cons_of_mem _ hz))
      show Int.land x (andAll (y :: r)) = M
      rw [this, hx, land_self hM]

theorem foldl_max (l : List Int) (init : Int) :
    init ≤ l.foldl max init ∧ (∀ x ∈ l, x ≤ l.foldl max init)
      ∧ (l.foldl max init = init ∨ l.foldl max init ∈ l) := by
  induction l generalizing init with
  | nil => simp
  | cons x xs ih =>
    obtain ⟨h1, h2, h3⟩ := ih (max init x)
    rw [List.foldl_cons]
    refine ⟨le_trans (le_max_left _ _) h1, ?_, ?_⟩
    · intro y hy
      rcases List.mem_cons.1 hy with rfl | hy
      · exact le_trans (le_max_right _ _) h1
      · exact h2 y hy
    · rcases h3 with h3 | h3
      · rcases max_choice init x with h | h
        · left; rw [h3, h]
        · right; rw [h3, h]; exact List.mem_cons_self _ _
      · right; exact List.mem_cons_of_mem _ h3

/-- The second loop, read as a fold: what it returns bounds every run of `M` and is the
length of one. -/
theorem run_loop (M : Int) (l : List Int) :
    ∀ c a : Int, 0 ≤ c → c ≤ a →
      (a ≤ (l.foldl (fun (st : Int × Int) x =>
            ((if x = M then st.1 + 1 else 0), max st.2 (if x = M then st.1 + 1 else 0)))
            (c, a)).2
        ∧ (∀ sub : List Int, sub <+: l → (∀ x ∈ sub, x = M) →
            c + (sub.length : Int) ≤ (l.foldl (fun (st : Int × Int) x =>
              ((if x = M then st.1 + 1 else 0), max st.2 (if x = M then st.1 + 1 else 0)))
              (c, a)).2)
        ∧ (∀ sub : List Int, sub <:+: l → (∀ x ∈ sub, x = M) →
            (sub.length : Int) ≤ (l.foldl (fun (st : Int × Int) x =>
              ((if x = M then st.1 + 1 else 0), max st.2 (if x = M then st.1 + 1 else 0)))
              (c, a)).2))
      ∧ ((l.foldl (fun (st : Int × Int) x =>
            ((if x = M then st.1 + 1 else 0), max st.2 (if x = M then st.1 + 1 else 0)))
            (c, a)).2 = a
        ∨ (∃ sub : List Int, sub <+: l ∧ (∀ x ∈ sub, x = M)
            ∧ (l.foldl (fun (st : Int × Int) x =>
              ((if x = M then st.1 + 1 else 0), max st.2 (if x = M then st.1 + 1 else 0)))
              (c, a)).2 = c + (sub.length : Int))
        ∨ ∃ sub : List Int, sub <:+: l ∧ (∀ x ∈ sub, x = M)
            ∧ (l.foldl (fun (st : Int × Int) x =>
              ((if x = M then st.1 + 1 else 0), max st.2 (if x = M then st.1 + 1 else 0)))
              (c, a)).2 = (sub.length : Int)) := by
  induction l with
  | nil =>
    intro c a hc hca
    refine ⟨⟨le_refl _, ?_, ?_⟩, Or.inl rfl⟩
    · intro sub hsub _
      rw [List.prefix_nil.1 hsub]
      simpa using hca
    · intro sub hsub _
      rw [List.infix_nil.1 hsub]
      simp only [List.length_nil, List.foldl_nil, Nat.cast_zero]
      omega
  | cons x l ih =>
    intro c a hc hca
    rw [List.foldl_cons]
    by_cases hx : x = M
    · simp only [hx, if_true]
      obtain ⟨⟨u1, u2, u3⟩, hatt⟩ := ih (c + 1) (max a (c + 1)) (by omega) (le_max_right _ _)
      refine ⟨⟨le_trans (le_max_left _ _) u1, ?_, ?_⟩, ?_⟩
      · intro sub hsub hall
        rcases List.prefix_cons_iff.1 hsub with rfl | ⟨t, rfl, ht⟩
        · simp only [List.length_nil, Nat.cast_zero, add_zero]
          exact le_trans hca (le_trans (le_max_left _ _) u1)
        · have := u2 t ht (fun y hy => hall y (List.mem_cons_of_mem _ hy))
          simp only [List.length_cons, Nat.cast_add, Nat.cast_one]
          omega
      · intro sub hsub hall
        rcases List.infix_cons_iff.1 hsub with hp | hi
        · rcases List.prefix_cons_iff.1 hp with rfl | ⟨t, rfl, ht⟩
          · simp only [List.length_nil, Nat.cast_zero]
            exact le_trans (le_trans hc hca) (le_trans (le_max_left _ _) u1)
          · have := u2 t ht (fun y hy => hall y (List.mem_cons_of_mem _ hy))
            simp only [List.length_cons, Nat.cast_add, Nat.cast_one]
            omega
        · exact u3 sub hi hall
      · rcases hatt with h | ⟨sub, hs, hall, h⟩ | ⟨sub, hs, hall, h⟩
        · rcases max_choice a (c + 1) with hm | hm
          · left; rw [h, hm]
          · right; left
            refine ⟨[M], ?_, by simp, ?_⟩
            · exact List.prefix_cons_iff.2 (Or.inr ⟨[], rfl, List.nil_prefix⟩)
            · rw [h, hm]
              simp
        · right; left
          refine ⟨M :: sub, List.prefix_cons_iff.2 (Or.inr ⟨sub, rfl, hs⟩), ?_, ?_⟩
          · intro y hy
            rcases List.mem_cons.1 hy with rfl | hy
            · rfl
            · exact hall y hy
          · rw [h]
            simp only [List.length_cons, Nat.cast_add, Nat.cast_one]
            omega
        · right; right
          exact ⟨sub, List.infix_cons_iff.2 (Or.inr hs), hall, h⟩
    · simp only [hx, if_false]
      have ha0 : max a 0 = a := max_eq_left (le_trans hc hca)
      rw [ha0]
      obtain ⟨⟨u1, u2, u3⟩, hatt⟩ := ih 0 a (le_refl _) (le_trans hc hca)
      refine ⟨⟨u1, ?_, ?_⟩, ?_⟩
      · intro sub hsub hall
        rcases List.prefix_cons_iff.1 hsub with rfl | ⟨t, rfl, _⟩
        · simp only [List.length_nil, Nat.cast_zero, add_zero]
          exact le_trans hca u1
        · exact absurd (hall x (List.mem_cons_self _ _)) hx
      · intro sub hsub hall
        rcases List.infix_cons_iff.1 hsub with hp | hi
        · rcases List.prefix_cons_iff.1 hp with rfl | ⟨t, rfl, _⟩
          · simp only [List.length_nil, Nat.cast_zero]
            exact le_trans (le_trans hc hca) u1
          · exact absurd (hall x (List.mem_cons_self _ _)) hx
        · exact u3 sub hi hall
      · rcases hatt with h | ⟨sub, hs, hall, h⟩ | ⟨sub, hs, hall, h⟩
        · exact Or.inl h
        · right; right
          refine ⟨sub, List.infix_cons_iff.2 (Or.inr hs.isInfix), hall, ?_⟩
          rw [h]
          omega
        · right; right
          exact ⟨sub, List.infix_cons_iff.2 (Or.inr hs), hall, h⟩


theorem singleton_infix_of_mem {x : Int} {l : List Int} (h : x ∈ l) : [x] <:+: l := by
  obtain ⟨s, t, hst⟩ := List.append_of_mem h
  exact ⟨s, t, by rw [hst]; simp⟩

theorem longestSubarray_eq (nums : List Int) :
    longestSubarray nums
      = (nums.foldl (fun (st : Int × Int) x =>
          ((if x = nums.foldl max 0 then st.1 + 1 else 0),
            max st.2 (if x = nums.foldl max 0 then st.1 + 1 else 0))) (0, 0)).2 := by
  unfold longestSubarray
  simp only
  rw [forLoop_foldl nums max 0 0]
  rw [forLoop_foldl nums (fun (st : Int × Int) x =>
    ((if x = nums.foldl max 0 then st.1 + 1 else 0),
      max st.2 (if x = nums.foldl max 0 then st.1 + 1 else 0))) 0 (0, 0)]

/-- C12: for a non-empty list of non-negative integers there is a largest bitwise AND `M` of
a non-empty contiguous subarray, and `longestSubarray` returns the length of the longest
non-empty contiguous subarray whose AND is `M`; `M` is the maximum of the list and the
result is the length of the longest run of elements equal to it. -/
theorem longestSubarray_spec (nums : List Int) (hne : nums ≠ []) (hnn : ∀ x ∈ nums, 0 ≤ x) :
    ∃ M : Int,
      ((∃ sub : List Int, sub <:+: nums ∧ sub ≠ [] ∧ andAll sub = M)
        ∧ ∀ sub : List Int, sub <:+: nums → sub ≠ [] → andAll sub ≤ M)
      ∧ ((∃ sub : List Int, sub <:+: nums ∧ sub ≠ [] ∧ andAll sub = M
            ∧ (sub.length : Int) = longestSubarray nums)
        ∧ ∀ sub : List Int, sub <:+: nums → sub ≠ [] → andAll sub = M →
            (sub.length : Int) ≤ longestSubarray nums)
      ∧ (M ∈ nums ∧ ∀ x ∈ nums, x ≤ M)
      ∧ ((∃ run : List Int, run <:+: nums ∧ (∀ x ∈ run, x = M)
            ∧ (run.length : Int) = longestSubarray nums)
        ∧ ∀ run : List Int, run <:+: nums → (∀ x ∈ run, x = M) →
            (run.length : Int) ≤ longestSubarray nums) := by
  obtain ⟨m0, mle, mch⟩ := foldl_max nums 0
  have hmem : nums.foldl max 0 ∈ nums := by
    rcases mch with h | h
    · obtain ⟨x, hx⟩ := List.exists_mem_of_ne_nil nums hne
      have h1 := hnn x hx
      have h2 := mle x hx
      have hx0 : x = nums.foldl max 0 := by omega
      rw [← hx0]
      exact hx
    · exact h
  obtain ⟨⟨-, -, hup⟩, hatt⟩ := run_loop (nums.foldl max 0) nums 0 0 (le_refl _) (le_refl _)
  rw [← longestSubarray_eq] at hup hatt
  have hrun : ∃ run : List Int, run <:+: nums ∧ (∀ x ∈ run, x = nums.foldl max 0)
      ∧ (run.length : Int) = longestSubarray nums := by
    rcases hatt with h | ⟨sub, hs, hall, h⟩ | ⟨sub, hs, hall, h⟩
    · exact ⟨[], List.nil_infix, by simp, by rw [h]; rfl⟩
    · exact ⟨sub, hs.isInfix, hall, by rw [h]; omega⟩
    · exact ⟨sub, hs, hall, h.symm⟩
  have hone : [nums.foldl max 0] <:+: nums := singleton_infix_of_mem hmem
  have hpos : (1 : Int) ≤ longestSubarray nums := by
    have := hup [nums.foldl max 0] hone (by simp)
    simpa using this
  have hsubnn : ∀ sub : List Int, sub <:+: nums → ∀ x ∈ sub, 0 ≤ x :=
    fun sub hs x hx => hnn x (hs.subset hx)
  have hallM : ∀ sub : List Int, sub <:+: nums → sub ≠ [] →
      andAll sub = nums.foldl max 0 → ∀ x ∈ sub, x = nums.foldl max 0 := by
    intro sub hs hsne hand x hx
    have h1 := (andAll_le sub hsne (hsubnn sub hs)).2 x hx
    have h2 := mle x (hs.subset hx)
    omega
  refine ⟨nums.foldl max 0, ⟨⟨[nums.foldl max 0], hone, by simp, rfl⟩, ?_⟩, ⟨?_, ?_⟩,
    ⟨hmem, mle⟩, ⟨hrun, hup⟩⟩
  · intro sub hs hsne
    obtain ⟨x, hx⟩ := List.exists_mem_of_ne_nil sub hsne
    exact le_trans ((andAll_le sub hsne (hsubnn sub hs)).2 x hx) (mle x (hs.subset hx))
  · obtain ⟨run, hr, hall, hlen⟩ := hrun
    have hrne : run ≠ [] := by
      intro h
      rw [h] at hlen
      simp only [List.length_nil, Nat.cast_zero] at hlen
      omega
    exact ⟨run, hr, hrne, andAll_const run _ m0 hrne hall, hlen⟩
  · intro sub hs hsne hand
    exact hup sub hs (hallM sub hs hsne hand)

/-- C12 (witness): `nums = [1,2,3,3,2,2]`, where the longest run of the maximum `3` has
length `2`. -/
theorem longestSubarray_spec_witness :
    longestSubarray [1, 2, 3, 3, 2, 2] = 2
      ∧ ∃ M : Int,
        ((∃ sub : List Int, sub <:+: [1, 2, 3, 3, 2, 2] ∧ sub ≠ [] ∧ andAll sub = M)
          ∧ ∀ sub : List Int, sub <:+: [1, 2, 3, 3, 2, 2] → sub ≠ [] → andAll sub ≤ M)
        ∧ ((∃ sub : List Int, sub <:+: [1, 2, 3, 3, 2, 2] ∧ sub ≠ [] ∧ andAll sub = M
              ∧ (sub.length : Int) = longestSubarray [1, 2, 3, 3, 2, 2])
          ∧ ∀ sub : List Int, sub <:+: [1, 2, 3, 3, 2, 2] → sub ≠ [] → andAll sub = M →
              (sub.length : Int) ≤ longestSubarray [1, 2, 3, 3, 2, 2])
        ∧ (M ∈ ([1, 2, 3, 3, 2, 2] : List Int) ∧ ∀ x ∈ ([1, 2, 3, 3, 2, 2] : List Int), x ≤ M)
        ∧ ((∃ run : List Int, run <:+: [1, 2, 3, 3, 2, 2] ∧ (∀ x ∈ run, x = M)
              ∧ (run.length : Int) = longestSubarray [1, 2, 3, 3, 2, 2])
          ∧ ∀ run : List Int, run <:+: [1, 2, 3, 3, 2, 2] → (∀ x ∈ run, x = M) →
              (run.length : Int) ≤ longestSubarray [1, 2, 3, 3, 2, 2]) :=
  ⟨by decide, longestSubarray_spec [1, 2, 3, 3, 2, 2] (by decide) (by decide)⟩

end MaxAnd
theorem forLoop_congr {σ : Type} (n : Nat) (body1 body2 : Nat → σ → σ) (init : σ)
    (h : ∀ i, i < n → ∀ s, body1 i s = body2 i s) :
    forLoop n body1 init = forLoop n body2 init := by
  induction n with
  | zero => rfl
  | succ n ih =>
    rw [forLoop_succ, forLoop_succ, ih (fun i hi s => h i (by omega) s), h n (by omega)]

theorem char_ofNat_toNat (n : Nat) (h : n < 256) : (Char.ofNat n).toNat = n := by
  have hv : n.isValidChar := Or.inl (by omega)
  simp only [Char.ofNat, hv, Char.toNat, Char.ofNatAux, dite_true]
  simp [UInt32.toNat, BitVec.toNat_ofNatLt]

namespace StringHash

theorem outer_loop (t0 : Int) (s : List Char) (k : Nat) :
    ∀ m, forLoop m (fun i (st : Int × List Char) =>
        (0, st.2 ++ [numberToAlphabet (Int.tmod (blockLoop s k i st.1) 26)])) (t0, [])
      = ((if m = 0 then t0 else 0),
         (List.range m).map (fun i =>
           numberToAlphabet (Int.tmod (blockLoop s k i (if i = 0 then t0 else 0)) 26))) := by
  intro m
  induction m with
  | zero => simp [forLoop_zero]
  | succ m ih =>
    rw [forLoop_succ, ih, List.range_succ, List.map_append]
    simp

theorem stringHash_eq (t0 : Int) (s : List Char) (k : Nat) :
    stringHash t0 s k = (List.range (s.length / k)).map (fun i =>
      numberToAlphabet (Int.tmod (blockLoop s k i (if i = 0 then t0 else 0)) 26)) := by
  unfold stringHash
  rw [outer_loop]

theorem foldl_temp (l : List Char) (temp : Int)
    (hl : ∀ c ∈ l, 0 ≤ alphabetToNumber c) (h0 : -2 ^ 31 ≤ temp)
    (h1 : temp + (l.map alphabetToNumber).sum < 2 ^ 31) :
    l.foldl (fun temp c => wrap32 (temp + alphabetToNumber c)) temp
      = temp + (l.map alphabetToNumber).sum := by
  induction l generalizing temp with
  | nil => simp
  | cons c r ih =>
    have hc := hl c (List.mem_cons_self _ _)
    have hr : 0 ≤ (r.map alphabetToNumber).sum := by
      apply List.sum_nonneg
      intro x hx
      obtain ⟨y, hy, rfl⟩ := List.mem_map.1 hx
      exact hl y (List.mem_cons_of_mem _ hy)
    simp only [List.map_cons, List.sum_cons] at h1
    simp only [List.foldl_cons, List.map_cons, List.sum_cons]
    rw [wrap32_of_range (by omega) (by omega),
      ih _ (fun y hy => hl y (List.mem_cons_of_mem _ hy)) (by omega) (by omega)]
    ring

theorem blockLoop_eq (s : List Char) (k i : Nat) (temp : Int) (hin : i * k + k ≤ s.length)
    (hlow : ∀ c ∈ s, 97 ≤ c.toNat ∧ c.toNat ≤ 122) (h0 : -2 ^ 31 ≤ temp)
    (h1 : temp + blockSum s k i < 2 ^ 31) :
    blockLoop s k i temp = temp + blockSum s k i := by
  have hlen : ((s.drop (i * k)).take k).length = k := by
    rw [List.length_take, List.length_drop]
    omega
  have hbody : ∀ t, t < k → ∀ x : Int,
      wrap32 (x + alphabetToNumber (s.getD (i * k + t) (Char.ofNat 0)))
        = wrap32 (x + alphabetToNumber (((s.drop (i * k)).take k).getD t (Char.ofNat 0))) := by
    intro t ht x
    have : ((s.drop (i * k)).take k).getD t (Char.ofNat 0) = s.getD (i * k + t) (Char.ofNat 0) := by
      rw [List.getD_eq_getElem?_getD, List.getD_eq_getElem?_getD, List.getElem?_take_of_lt ht,
        List.getElem?_drop]
    rw [this]
  unfold blockLoop
  rw [forLoop_congr k _ _ temp hbody]
  have hfold := forLoop_foldl ((s.drop (i * k)).take k)
    (fun (temp : Int) c => wrap32 (temp + alphabetToNumber c)) (Char.ofNat 0) temp
  rw [hlen] at hfold
  rw [hfold]
  exact foldl_temp _ temp (by
    intro c hc
    have hcs : c ∈ s := List.mem_of_mem_drop (List.mem_of_mem_take hc)
    have := hlow c hcs
    unfold alphabetToNumber
    omega) h0 h1

theorem blockSum_range (s : List Char) (k i : Nat)
    (hlow : ∀ c ∈ s, 97 ≤ c.toNat ∧ c.toNat ≤ 122) :
    0 ≤ blockSum s k i ∧ blockSum s k i ≤ 25 * (k : Int) := by
  have hgen : ∀ l : List Char, (∀ c ∈ l, 97 ≤ c.toNat ∧ c.toNat ≤ 122) →
      0 ≤ (l.map alphabetToNumber).sum ∧ (l.map alphabetToNumber).sum ≤ 25 * (l.length : Int) := by
    intro l
    induction l with
    | nil => intro _; simp
    | cons c r ih =>
      intro h
      have hc := h c (List.mem_cons_self _ _)
      have hr := ih (fun y hy => h y (List.mem_cons_of_mem _ hy))
      have hca : 0 ≤ alphabetToNumber c ∧ alphabetToNumber c ≤ 25 := by
        unfold alphabetToNumber
        omega
      simp only [List.map_cons, List.sum_cons, List.length_cons, Nat.cast_add, Nat.cast_one]
      constructor <;> omega
  have h := hgen ((s.drop (i * k)).take k) (fun c hc =>
    hlow c (List.mem_of_mem_drop (List.mem_of_mem_take hc)))
  have hlen : (((s.drop (i * k)).take k).length : Int) ≤ (k : Int) := by
    have : ((s.drop (i * k)).take k).length ≤ k := by
      rw [List.length_take]
      exact Nat.min_le_left _ _
    exact_mod_cast this
  unfold blockSum
  constructor
  · exact h.1
  · omega

theorem numberToAlphabet_small (x : Int) (h0 : 0 ≤ x) (h1 : x < 26) :
    numberToAlphabet x = Char.ofNat (97 + x.toNat) := by
  unfold numberToAlphabet
  have e : ((97 + x) % 256).toNat = 97 + x.toNat := by omega
  rw [e]

theorem block_in_string (s : List Char) (k i : Nat) (hi : i < s.length / k) :
    i * k + k ≤ s.length := by
  have h1 : (i + 1) * k ≤ s.length / k * k := Nat.mul_le_mul_right k hi
  have h2 : s.length / k * k ≤ s.length := Nat.div_mul_le_self _ _
  have h3 : (i + 1) * k = i * k + k := by ring
  omega


theorem normal_block (s : List Char) (k i : Nat)
    (hlow : ∀ c ∈ s, 97 ≤ c.toNat ∧ c.toNat ≤ 122) (hsize : 25 * (k : Int) < 2 ^ 31)
    (hi : i < s.length / k) :
    numberToAlphabet (Int.tmod (blockLoop s k i 0) 26)
      = Char.ofNat (97 + (blockSum s k i % 26).toNat) := by
  have hb := blockSum_range s k i hlow
  rw [blockLoop_eq s k i 0 (block_in_string s k i hi) hlow (by norm_num) (by omega), zero_add,
    Int.tmod_eq_emod hb.1 (by norm_num)]
  exact numberToAlphabet_small _ (Int.emod_nonneg _ (by norm_num))
    (Int.emod_lt_of_pos _ (by norm_num))

/-- C20 (counterexample): for the empty string the result is empty whatever `temp` holds, so
that no value of `t0` makes it differ from the intended hash; and for `t0 = 2^31 - 1`,
`s = "b"`, `k = 1` the addition leaves the `int` range, and the character produced is `'I'`
and not `'a' + ((t0 + 1) % 26) = 'y'`. -/
theorem stringHash_claim_fails :
    (¬ ∃ t0 : Int, stringHash t0 [] 1 ≠ intendedHash [] 1)
      ∧ stringHash (2 ^ 31 - 1) "b".toList 1 = "I".toList
      ∧ numberToAlphabet (Int.tmod (2 ^ 31 - 1 + blockSum "b".toList 1 0) 26) = 'y' := by
  refine ⟨?_, by decide, by decide⟩
  rintro ⟨t0, h⟩
  exact h rfl

/-- C20 (amended): with `temp` holding `t0` at the start, for lowercase `s` and `k ≥ 1`
(with `25 * k` below `2^31`, so that no block sum leaves the `int` range), `stringHash(s, k)`
has length `len(s) / k`; every character at a position `i ≥ 1` is
`'a' + (block sum mod 26)`, whatever `t0` is; the character at position `0` is
`'a' + ((t0 + block sum) % 26)` when `t0 + block sum` lies in the `int` range; the result is
the intended hash for `t0 = 0`, and for a string of at least one block it differs from the
intended hash for some `t0`. -/
theorem stringHash_spec (s : List Char) (k : Nat) (hk : 1 ≤ k)
    (hlow : ∀ c ∈ s, 97 ≤ c.toNat ∧ c.toNat ≤ 122) (hsize : 25 * (k : Int) < 2 ^ 31) :
    (∀ t0 : Int, (stringHash t0 s k).length = s.length / k)
      ∧ (∀ (t0 : Int) (i : Nat), 1 ≤ i → i < s.length / k →
          (stringHash t0 s k)[i]? = some (Char.ofNat (97 + (blockSum s k i % 26).toNat)))
      ∧ (∀ t0 : Int, -2 ^ 31 ≤ t0 → t0 + blockSum s k 0 < 2 ^ 31 → 0 < s.length / k →
          (stringHash t0 s k)[0]?
            = some (numberToAlphabet (Int.tmod (t0 + blockSum s k 0) 26)))
      ∧ stringHash 0 s k = intendedHash s k
      ∧ (0 < s.length / k → ∃ t0 : Int, stringHash t0 s k ≠ intendedHash s k) := by
  have hkpos : 0 < k := hk
  have hzero : ∀ t0 : Int, -2 ^ 31 ≤ t0 → t0 + blockSum s k 0 < 2 ^ 31 → 0 < s.length / k →
      (stringHash t0 s k)[0]?
        = some (numberToAlphabet (Int.tmod (t0 + blockSum s k 0) 26)) := by
    intro t0 h0 h1 hm
    rw [stringHash_eq, List.getElem?_map, List.getElem?_range hm]
    simp only [Option.map_some', if_true]
    rw [blockLoop_eq s k 0 t0 (block_in_string s k 0 hm) hlow h0 h1]
  refine ⟨?_, ?_, hzero, ?_, ?_⟩
  · intro t0
    rw [stringHash_eq, List.length_map, List.length_range]
  · intro t0 i hi1 hi
    rw [stringHash_eq, List.getElem?_map, List.getElem?_range hi]
    simp only [Option.map_some']
    rw [if_neg (by omega), normal_block s k i hlow hsize hi]
  · rw [stringHash_eq]
    unfold intendedHash
    apply List.map_congr_left
    intro i hi
    rw [ite_self]
    exact normal_block s k i hlow hsize (List.mem_range.1 hi)
  · intro hm
    refine ⟨1, fun heq => ?_⟩
    have hb := blockSum_range s k 0 hlow
    have h1 := hzero 1 (by norm_num) (by omega) hm
    rw [heq] at h1
    unfold intendedHash at h1
    rw [List.getElem?_map, List.getElem?_range hm] at h1
    simp only [Option.map_some'] at h1
    have h2 := Option.some.inj h1
    rw [Int.tmod_eq_emod (by omega) (by norm_num),
      numberToAlphabet_small _ (Int.emod_nonneg _ (by norm_num))
        (Int.emod_lt_of_pos _ (by norm_num))] at h2
    have h3 := congrArg Char.toNat h2
    have x0 := Int.emod_nonneg (blockSum s k 0) (show (26 : Int) ≠ 0 by norm_num)
    have x1 := Int.emod_lt_of_pos (blockSum s k 0) (show (0 : Int) < 26 by norm_num)
    have y0 := Int.emod_nonneg (1 + blockSum s k 0) (show (26 : Int) ≠ 0 by norm_num)
    have y1 := Int.emod_lt_of_pos (1 + blockSum s k 0) (show (0 : Int) < 26 by norm_num)
    rw [char_ofNat_toNat _ (by omega), char_ofNat_toNat _ (by omega)] at h3
    omega

/-- C20 (witness): `s = "abcd"`, `k = 2`: the intended hash is `"bf"`, and `t0 = 1` gives
`"cf"`. -/
theorem stringHash_spec_witness :
    stringHash 0 "abcd".toList 2 = "bf".toList ∧ stringHash 1 "abcd".toList 2 = "cf".toList
      ∧ stringHash 0 "abcd".toList 2 = intendedHash "abcd".toList 2
      ∧ (0 < "abcd".toList.length / 2 →
          ∃ t0 : Int, stringHash t0 "abcd".toList 2 ≠ intendedHash "abcd".toList 2) :=
  ⟨by decide, by decide,
    (stringHash_spec "abcd".toList 2 (by decide) (by decide) (by decide)).2.2.2⟩

end StringHash
